import Mathlib

/-!
Verification development for the Mach-O symbolication core
(src/symbolize/gimli/macho.rs).

The Rust code is shallowly embedded: byte buffers become `List Nat`
(one `Nat` per byte), `u64` arithmetic is explicit `% 2^64`, fallible
operations return `Option` or `Except Unit`, and the externally supplied
load-command stream is a list of command results.  Stateful code
(`search_object_map`, which memoizes into `object_mappings`) is embedded by
explicit state passing, together with a counter of how many times the
expensive `object_mapping` resolution step was invoked.
-/

namespace Macho

/-- Byte strings (`&[u8]` in the source), one `Nat` per byte. -/
abbrev ByteStr := List Nat

/-- ASCII bytes of a string literal. -/
def strBytes (s : String) : ByteStr := s.data.map Char.toNat

/-- The byte `b'('`. -/
def lparen : Nat := 40

/-- The byte `b')'`. -/
def rparen : Nat := 41

/-- `2 ^ 64`, the modulus of `u64` arithmetic. -/
def U64MOD : Nat := 2 ^ 64

/-- `u64::wrapping_add`. -/
def wadd (a b : Nat) : Nat := (a + b) % U64MOD

/-- `u64::wrapping_sub` (both arguments first reduced into `u64` range). -/
def wsub (a b : Nat) : Nat := (a % U64MOD + (U64MOD - b % U64MOD)) % U64MOD

/-! ### `split_archive_path` -/

/-- `rest.strip_prefix(b'(')` from the source: remove a leading `(` byte,
failing when the string is empty or starts with another byte. -/
def stripParenHead : ByteStr → Option ByteStr
  | [] => none
  | b :: rest => if b = lparen then some rest else none

/-- `member.strip_suffix(b')')` from the source: remove a trailing `)` byte,
failing when the string is empty or ends with another byte. -/
def stripParenTail (l : ByteStr) : Option ByteStr :=
  match l.getLast? with
  | some b => if b = rparen then some l.dropLast else none
  | none => none

/-- `split_archive_path` from the source: split `archive(member)` at the first
`(`; the member must be terminated by a trailing `)`. -/
def split_archive_path (path : ByteStr) : Option (ByteStr × ByteStr) :=
  match path.findIdx? (fun b => b == lparen) with
  | none => none
  | some index =>
    let archive := path.take index
    let rest := path.drop index
    match stripParenHead rest with
    | none => none
    | some rest1 =>
      match stripParenTail rest1 with
      | none => none
      | some member => some (archive, member)

/-! ### Binary search (`slice::binary_search_by_key`) -/

/-- The loop of Rust's `slice::binary_search_by_key` specialised to `Nat`
keys.  The `fuel` argument bounds the number of iterations of the
`while left < right` loop; each iteration shrinks `right - left`, so any
`fuel ≥ right - left` makes the function agree with the unbounded loop, and
when fuel runs out `left ≥ right` already holds and `Sum.inr left` is the
loop's own exit value.  `Sum.inl i` is Rust's `Ok(i)` (key found at `i`),
`Sum.inr i` is `Err(i)` (insertion point `i`). -/
def binSearchGo (keys : List Nat) (key : Nat) : Nat → Nat → Nat → Sum Nat Nat
  | 0, left, _ => Sum.inr left
  | fuel + 1, left, right =>
    if left < right then
      let mid := left + (right - left) / 2
      let k := keys.getD mid 0
      if k < key then binSearchGo keys key fuel (mid + 1) right
      else if key < k then binSearchGo keys key fuel left mid
      else Sum.inl mid
    else Sum.inr left

/-- `keys.binary_search_by_key(&key, ...)` on a whole list. -/
def binary_search_by_key (keys : List Nat) (key : Nat) : Sum Nat Nat :=
  binSearchGo keys key keys.length 0 keys.length

/-! ### Data model of `Object` and its collaborators -/

/-- One entry of a segment's section table (`MachSection` in the source):
its stored name and the `(offset, size)` byte range it occupies in the
image.  `Section::data` slices that range out of the image bytes. -/
structure MachSectionM where
  name : ByteStr
  offset : Nat
  size : Nat
deriving DecidableEq

/-- The external `Context` collaborator, as used by `search_object_map`:
only its parsed sub-object's symbol list (`cx.object.syms`) is consulted. -/
structure CtxM where
  syms : List (ByteStr × Nat)
deriving DecidableEq

/-- One entry of the debug/object map (`symbol` in `search_object_map`):
its name, its address in the linked image, and the index of its
originating object. -/
structure OMSymbolM where
  name : ByteStr
  address : Nat
  object_index : Nat
deriving DecidableEq

/-- The debug/object map (`object::ObjectMap`).  `get` is the external
crate's address lookup, kept abstract as a function; `objects` is the list
of originating-object paths (`ObjectMap::object(i)` indexes into it). -/
structure OMapM where
  get : Nat → Option OMSymbolM
  objects : List ByteStr

/-- The parse result (`struct Object` in the source).  A cache slot of
`object_mappings` is `none` when unresolved, `some none` when resolved as
failure and `some (some cx)` when resolved successfully (the source's
`Option<Option<Mapping>>`). -/
structure ObjectM where
  data : List Nat
  dwarf : Option (List MachSectionM)
  syms : List (ByteStr × Nat)
  object_map : Option OMapM
  object_mappings : List (Option (Option CtxM))

/-- One symbol-table entry (`MachNlist`): the result of looking up its name
in the string table (which can fail), its `is_definition()` flag and its
`n_value`. -/
structure NlistM where
  name : Except Unit ByteStr
  isDef : Bool
  value : Nat

/-- A decoded symbol table command: its symbol entries and the debug/object
map the external crate derives from its stab entries
(`symbols.object_map(endian)`). -/
structure SymtabM where
  nlists : List NlistM
  omap : OMapM

/-- One load command as seen by the scan loop in `Object::parse`.
`segmentErr` models `MachSegment::from_command` returning `Err`;
`symtabErr` models `command.symtab()` returning `Err`; a `segment`'s
section table and a `symtab`'s decoded symbols can themselves be errors
(`segment.sections(..)` resp. `symtab.symbols(..)` failing); `other`
is any command that is neither a segment nor a symbol table. -/
inductive CommandM where
  | segment (name : ByteStr) (sections : Except Unit (List MachSectionM))
  | segmentErr
  | symtab (table : Except Unit SymtabM)
  | symtabErr
  | other

/-- `object::macho::MH_OBJECT`, the relocatable-object file type. -/
def MH_OBJECT : Nat := 1

/-- `b"__DWARF"`, the segment name that carries the DWARF section table. -/
def dwarfSegName : ByteStr := strBytes "__DWARF"

/-- Decoding of one nlist entry inside the `filter_map` of `Object::parse`:
drop entries whose name lookup fails, whose name is empty or that are not
definitions; keep `(name, n_value)`. -/
def decodeNlist (n : NlistM) : Option (ByteStr × Nat) :=
  match n.name with
  | .error _ => none
  | .ok name => if name.length > 0 ∧ n.isDef = true then some (name, n.value) else none

/-- The sort key comparison of `sort_unstable_by_key(|(_, addr)| *addr)`. -/
def symLe (p q : ByteStr × Nat) : Bool := p.2 ≤ q.2

/-- The mutable locals of the scan loop in `Object::parse`. -/
structure ScanState where
  dwarf : Option (List MachSectionM)
  syms : List (ByteStr × Nat)
  object_map : Option OMapM
  object_mappings : List (Option (Option CtxM))

/-- One iteration of the scan loop body of `Object::parse`; `none` models
the enclosing function returning `None` through a `?`. -/
def scanStep (is_object : Bool) (st : ScanState) (c : CommandM) : Option ScanState :=
  match c with
  | .segmentErr => none
  | .segment name sections =>
    if name = dwarfSegName ∨ (is_object = true ∧ name = []) then
      some { st with dwarf := sections.toOption }
    else some st
  | .symtabErr => none
  | .symtab (.error _) => none
  | .symtab (.ok table) =>
    let syms := (table.nlists.filterMap decodeNlist).mergeSort symLe
    if is_object then some { st with syms := syms }
    else
      some { st with
        syms := syms,
        object_map := some table.omap,
        object_mappings := List.replicate table.omap.objects.length none }
  | .other => some st

/-- The scan loop `while let Ok(Some(command)) = commands.next()`: an `Err`
from the iterator (a malformed load-command header) merely ends the loop,
while a failing step aborts the whole parse. -/
def scanCommands (is_object : Bool) : List (Except Unit CommandM) → ScanState → Option ScanState
  | [], st => some st
  | .error _ :: _, st => some st
  | .ok c :: rest, st =>
    match scanStep is_object st c with
    | none => none
    | some st' => scanCommands is_object rest st'

/-- `Object::parse`.  `filetype` is `mach.filetype(endian)`; `commands` is
the load-command stream (`mach.load_commands(endian, data)`), whose
construction can itself fail; `data` is the image's byte buffer. -/
def Object.parse (filetype : Nat) (commands : Except Unit (List (Except Unit CommandM)))
    (data : List Nat) : Option ObjectM :=
  let is_object := filetype == MH_OBJECT
  match commands with
  | .error _ => none
  | .ok cmds =>
    match scanCommands is_object cmds ⟨none, [], none, []⟩ with
    | none => none
    | some st => some ⟨data, st.dwarf, st.syms, st.object_map, st.object_mappings⟩

/-! ### `Object::section` and `Object::search_symtab` -/

/-- `section.data(endian, data)`: slice the section's `(offset, size)` range
out of the image, failing when the range does not lie inside the image. -/
def sectionData (s : MachSectionM) (data : List Nat) : Option ByteStr :=
  if s.offset + s.size ≤ data.length then some ((data.drop s.offset).take s.size) else none

/-- The name comparison of `Object::section`: exact equality, or a stored
`__`-name matched against a queried `.`-name with equal remainders. -/
def sectionNameMatches (section_name query : ByteStr) : Bool :=
  section_name == query ||
    ((strBytes "__").isPrefixOf section_name && (strBytes ".").isPrefixOf query
      && section_name.drop 2 == query.drop 1)

/-- `Object::section` (named `section_` because `section` is a Lean
keyword): find the first DWARF table entry whose name matches and slice its
bytes out of the image. -/
def Object.section_ (o : ObjectM) (query : ByteStr) : Option ByteStr :=
  match o.dwarf with
  | none => none
  | some table =>
    match table.find? (fun s => sectionNameMatches s.name query) with
    | none => none
    | some s => sectionData s o.data

/-- `Object::search_symtab`: binary search by address, stepping back one
slot on `Err`, and returning the name stored at the landing index. -/
def Object.search_symtab (o : ObjectM) (addr : Nat) : Option ByteStr :=
  match binary_search_by_key (o.syms.map Prod.snd) addr with
  | Sum.inl i => (o.syms[i]?).map Prod.fst
  | Sum.inr i =>
    match i with
    | 0 => none
    | j + 1 => (o.syms[j]?).map Prod.fst

/-! ### `Object::search_object_map` -/

/-- The tail of `search_object_map` once the cache slot holds a resolved
value `r`: fail when the resolution failed, otherwise scan the sub-object's
symbol list for the first symbol with the identical name and translate the
address with `u64` wrapping arithmetic. -/
def finishLookup (symbol : OMSymbolM) (r : Option CtxM) (addr : Nat) : Option (CtxM × Nat) :=
  match r with
  | none => none
  | some cx =>
    match cx.syms.find? (fun os => os.1 == symbol.name) with
    | none => none
    | some os => some (cx, wadd (wsub addr symbol.address) os.2)

/-- `Object::search_object_map`, embedded with explicit state passing.
`resolve` is the `object_mapping` collaborator (file mapping plus recursive
parse).  Returns the result, the updated object (its cache slot possibly
resolved) and the number of times `resolve` was invoked. -/
def Object.search_object_map (resolve : ByteStr → Option CtxM) (o : ObjectM) (addr : Nat) :
    Option (CtxM × Nat) × ObjectM × Nat :=
  match o.object_map with
  | none => (none, o, 0)
  | some om =>
    match om.get addr with
    | none => (none, o, 0)
    | some symbol =>
      match o.object_mappings[symbol.object_index]? with
      | none => (none, o, 0)
      | some (some r) => (finishLookup symbol r addr, o, 0)
      | some none =>
        match om.objects[symbol.object_index]? with
        | none => (none, o, 0)
        | some path =>
          let r := resolve path
          (finishLookup symbol r addr,
            { o with object_mappings := o.object_mappings.set symbol.object_index (some r) },
            1)

/-! ### `find_header`

Byte-level embedding.  `W` is the target pointer width (32 or 64): it
selects the `Mach` header type (`MachHeader32`/`MachHeader64`) and the
range of `usize` for the `try_into` conversions.  `desired` is
`desired_cpu()` (the running process's CPU type, `none` on an unlisted
architecture).  The native endianness of the supported targets is little
endian, so the initial magic read is little endian while all fat-header
fields are big endian, as in the source. -/

/-- Little-endian `u32` value of the four bytes at `off` (bytes past the
end read as 0; every use is bounds-checked first). -/
def le32At (d : List Nat) (off : Nat) : Nat :=
  d.getD off 0 + 256 * d.getD (off + 1) 0 + 65536 * d.getD (off + 2) 0 +
    16777216 * d.getD (off + 3) 0

/-- Big-endian `u32` value of the four bytes at `off`. -/
def be32At (d : List Nat) (off : Nat) : Nat :=
  d.getD (off + 3) 0 + 256 * d.getD (off + 2) 0 + 65536 * d.getD (off + 1) 0 +
    16777216 * d.getD off 0

/-- Big-endian `u64` value of the eight bytes at `off`. -/
def be64At (d : List Nat) (off : Nat) : Nat :=
  be32At d (off + 4) + 4294967296 * be32At d off

/-- `Bytes::read::<U32<NativeEndian>>` at a fixed offset: bounds-checked
little-endian `u32` read. -/
def readU32LE (d : List Nat) (off : Nat) : Option Nat :=
  if off + 4 ≤ d.length then some (le32At d off) else none

/-- Bounds-checked big-endian `u32` read. -/
def readU32BE (d : List Nat) (off : Nat) : Option Nat :=
  if off + 4 ≤ d.length then some (be32At d off) else none

def MH_MAGIC : Nat := 0xfeedface
def MH_CIGAM : Nat := 0xcefaedfe
def MH_MAGIC_64 : Nat := 0xfeedfacf
def MH_CIGAM_64 : Nat := 0xcffaedfe
def FAT_MAGIC : Nat := 0xcafebabe
def FAT_CIGAM : Nat := 0xbebafeca
def FAT_MAGIC_64 : Nat := 0xcafebabf
def FAT_CIGAM_64 : Nat := 0xbfbafeca

/-- One fat architecture descriptor (`FatArch32`/`FatArch64`), keeping the
fields the source reads: CPU type, slice offset and slice size. -/
structure FatArchM where
  cputype : Nat
  offset : Nat
  size : Nat
deriving DecidableEq

/-- Byte size of a fat architecture descriptor: `FatArch32` is 20 bytes,
`FatArch64` is 32 bytes. -/
def fatArchSize (is64 : Bool) : Nat := if is64 then 32 else 20

/-- `header_data.read::<FatArch32/64>()` for the descriptor starting at
`off`: bounds-checked big-endian field reads (cputype at +0; offset/size at
+8/+12 as `u32` for the 32-bit form, at +8/+16 as `u64` for the 64-bit
form). -/
def readFatArch (is64 : Bool) (d : List Nat) (off : Nat) : Option FatArchM :=
  if off + fatArchSize is64 ≤ d.length then
    if is64 then some ⟨be32At d off, be64At d (off + 8), be64At d (off + 16)⟩
    else some ⟨be32At d off, be32At d (off + 8), be32At d (off + 12)⟩
  else none

/-- `(0..nfat).filter_map(|_| header_data.read::<FatArch>().ok())`: the
descriptors actually readable from the buffer.  The source reads through a
cursor that only advances on success; since a failed read leaves the cursor
in place and every later read then fails at the same spot, this equals
reading at the fixed offsets `8 + archsize * i`. -/
def fatCandidates (is64 : Bool) (d : List Nat) (nfat : Nat) : List FatArchM :=
  (List.range nfat).filterMap (fun i => readFatArch is64 d (8 + fatArchSize is64 * i))

/-- `Bytes::read_bytes_at(offset, size)`: bounds-checked subslice. -/
def read_bytes_at (d : List Nat) (offset size : Nat) : Option (List Nat) :=
  if offset + size ≤ d.length then some ((d.drop offset).take size) else none

/-- The parsed thin header; only the magic is retained (no claim consults
the further header fields). -/
structure MachM where
  magic : Nat
deriving DecidableEq

/-- Size in bytes of the thin header for pointer width `W`
(`MachHeader64` is 32 bytes, `MachHeader32` is 28 bytes). -/
def machHeaderSize (W : Nat) : Nat := if W = 64 then 32 else 28

/-- `Mach::parse`: require the full header to be present and its (always
declared big-endian) magic field to be the thin magic of the target's
pointer width, in either byte order. -/
def machParse (W : Nat) (d : List Nat) : Option MachM :=
  let m := be32At d 0
  if machHeaderSize W ≤ d.length ∧
      (if W = 64 then m = MH_MAGIC_64 ∨ m = MH_CIGAM_64 else m = MH_MAGIC ∨ m = MH_CIGAM) then
    some ⟨m⟩
  else none

/-- `usize::try_from` succeeds: the value fits in `W` bits. -/
def fitsUsize (W v : Nat) : Bool := v < 2 ^ W

/-- The shared body of the two fat branches of `find_header`: read the
architecture count, find the first readable descriptor whose CPU type
equals the desired one, check the `usize` conversions of its offset and
size, and slice its byte range out of the buffer. -/
def fatSlice (W : Nat) (desired : Option Nat) (is64 : Bool) (d : List Nat) :
    Option (List Nat) :=
  match readU32BE d 4 with
  | none => none
  | some nfat =>
    match (fatCandidates is64 d nfat).find? (fun a => desired == some a.cputype) with
    | none => none
    | some arch =>
      if fitsUsize W arch.offset ∧ fitsUsize W arch.size then
        read_bytes_at d arch.offset arch.size
      else none

/-- `find_header`: dispatch on the native-endian magic word, locate the
image bytes (the whole buffer for a thin magic, the matching slice for a
fat magic), and parse the thin header found there. -/
def find_header (W : Nat) (desired : Option Nat) (d : List Nat) :
    Option (MachM × List Nat) :=
  match readU32LE d 0 with
  | none => none
  | some magic =>
    if magic = MH_MAGIC_64 ∨ magic = MH_CIGAM_64 ∨ magic = MH_MAGIC ∨ magic = MH_CIGAM then
      (machParse W d).map (fun h => (h, d))
    else if magic = FAT_MAGIC ∨ magic = FAT_CIGAM then
      match fatSlice W desired false d with
      | none => none
      | some slice => (machParse W slice).map (fun h => (h, slice))
    else if magic = FAT_MAGIC_64 ∨ magic = FAT_CIGAM_64 then
      match fatSlice W desired true d with
      | none => none
      | some slice => (machParse W slice).map (fun h => (h, slice))
    else none

/-! ### `Mapping::new`

The filesystem collaborators (`mmap`, `read_dir`, `Path::parent`) and the
per-file probing pipeline are supplied by a `WorldM`.  `probe p` bundles
the source's `mmap(p)?; find_header(..)?; macho.endian().ok()?;
macho.uuid(endian, data).ok()??` chain — `none` when any of those fails or
the file has no UUID record — together with the outcome of
`Object::parse(..).and_then(cx)` on that file's bytes (the step run for a
UUID-matching candidate, and for the target itself in the fallback). -/

/-- A filesystem path, as a list of byte-string components. -/
abbrev PathM := List ByteStr

/-- One directory entry: `file_name().into_string()` (which fails on
non-Unicode names) and `path()`. -/
structure DirEntM where
  fname : Option ByteStr
  path : PathM
deriving DecidableEq

/-- The external world.  `readDir p = none` models `read_dir` failing; a
`.error` element models an `Err` entry yielded by the iterator. -/
structure WorldM where
  parentOf : PathM → Option PathM
  readDir : PathM → Option (List (Except Unit DirEntM))
  probe : PathM → Option (Nat × Option CtxM)

/-- `".dSYM"` as bytes. -/
def dsymSuffix : ByteStr := strBytes ".dSYM"

/-- The fixed `Contents/Resources/DWARF` subpath. -/
def dwarfSubdir : PathM := [strBytes "Contents", strBytes "Resources", strBytes "DWARF"]

/-- The produced mapping: which file's sections back it (`some p` for the
dSYM candidate at `p`, `none` for the target itself) and its context. -/
structure MappingM where
  src : Option PathM
  ctx : CtxM
deriving DecidableEq

/-- The candidate loop inside `load_dsym`: any entry that fails to yield a
UUID aborts the directory scan; a UUID mismatch skips the entry; a match
returns the first candidate that also parses into a context, and otherwise
the loop continues. -/
def loadDsymGo (w : WorldM) (uuid : Nat) : List (Except Unit DirEntM) → Option MappingM
  | [] => none
  | .error _ :: _ => none
  | .ok e :: rest =>
    match w.probe e.path with
    | none => none
    | some (u, c) =>
      if u ≠ uuid then loadDsymGo w uuid rest
      else
        match c with
        | some cx => some ⟨some e.path, cx⟩
        | none => loadDsymGo w uuid rest

/-- `load_dsym(dir, uuid)` from the source. -/
def load_dsym (w : WorldM) (dir : PathM) (uuid : Nat) : Option MappingM :=
  match w.readDir dir with
  | none => none
  | some entries => loadDsymGo w uuid entries

/-- The sibling scan of `Mapping::new`: an `Err` directory entry aborts the
whole operation; entries without a Unicode name or without the `.dSYM`
suffix are skipped; each `.dSYM` sibling's `Contents/Resources/DWARF`
directory is searched, and when every sibling is exhausted the target's own
parse outcome `tctx` is the fallback. -/
def newScan (w : WorldM) (uuid : Nat) (tctx : Option CtxM) :
    List (Except Unit DirEntM) → Option MappingM
  | [] => tctx.map (fun c => ⟨none, c⟩)
  | .error _ :: _ => none
  | .ok e :: rest =>
    match e.fname with
    | none => newScan w uuid tctx rest
    | some name =>
      if dsymSuffix.isSuffixOf name then
        match load_dsym w (e.path ++ dwarfSubdir) uuid with
        | some m => some m
        | none => newScan w uuid tctx rest
      else newScan w uuid tctx rest

/-- `Mapping::new`. -/
def Mapping.new (w : WorldM) (path : PathM) : Option MappingM :=
  match w.probe path with
  | none => none
  | some (uuid, tctx) =>
    match w.parentOf path with
    | none => none
    | some parent =>
      match w.readDir parent with
      | none => none
      | some entries => newScan w uuid tctx entries

/-! Spec-side definitions for the amended C8 claim.  They follow the spec's
words ("the first sibling candidate, in filesystem iteration order, whose
embedded UUID equals the target's and which parses to a Context supplies
the Mapping; otherwise the target's own sections are used"), skipping
instead of aborting on enumeration or probing failures; the amended claim
equates them with `Mapping.new` on worlds where those failures do not
occur. -/

/-- Spec-side candidate scan: first entry whose UUID matches and which
parses; failures of any kind merely skip the entry. -/
def specDirScan (w : WorldM) (uuid : Nat) : List (Except Unit DirEntM) → Option MappingM
  | [] => none
  | .error _ :: rest => specDirScan w uuid rest
  | .ok e :: rest =>
    match w.probe e.path with
    | none => specDirScan w uuid rest
    | some (u, c) =>
      if u = uuid then
        match c with
        | some cx => some ⟨some e.path, cx⟩
        | none => specDirScan w uuid rest
      else specDirScan w uuid rest

/-- Spec-side sibling scan: first `.dSYM` sibling whose DWARF directory
holds a matching, parsable candidate. -/
def specFirstMatch (w : WorldM) (uuid : Nat) : List (Except Unit DirEntM) → Option MappingM
  | [] => none
  | .error _ :: rest => specFirstMatch w uuid rest
  | .ok e :: rest =>
    match e.fname with
    | none => specFirstMatch w uuid rest
    | some name =>
      if dsymSuffix.isSuffixOf name then
        match (w.readDir (e.path ++ dwarfSubdir)).bind (specDirScan w uuid) with
        | some m => some m
        | none => specFirstMatch w uuid rest
      else specFirstMatch w uuid rest

/-- Spec-side `Mapping::new`: require the target's UUID, then use the first
matching candidate, with the target's own parse outcome as fallback. -/
def specNew (w : WorldM) (path : PathM) : Option MappingM :=
  match w.probe path with
  | none => none
  | some (uuid, tctx) =>
    match w.parentOf path with
    | none => none
    | some parent =>
      match w.readDir parent with
      | none => none
      | some entries =>
        match specFirstMatch w uuid entries with
        | some m => some m
        | none => tctx.map (fun c => ⟨none, c⟩)

/-! ### Concrete example data used by witnesses and counterexamples -/

/-- A small sorted symbol list. -/
def exSyms : List (ByteStr × Nat) := [(strBytes "a", 2), (strBytes "b", 5)]

/-- A debug/object map with one originating object and no address hits. -/
def exOmap : OMapM := { get := fun _ => none, objects := [strBytes "x"] }

/-- A symbol-table command with no symbol entries and `exOmap` as its
derived debug map. -/
def exSymtabT : SymtabM := ⟨[], exOmap⟩

/-- A debug-map entry pointing at object index 0. -/
def exOMSym : OMSymbolM := ⟨strBytes "f", 4, 0⟩

/-- A debug map hitting `exOMSym` for the two addresses 10 and 11. -/
def exOmap2 : OMapM :=
  { get := fun a => if a = 10 ∨ a = 11 then some exOMSym else none,
    objects := [strBytes "p"] }

/-- An object whose single cache slot is already resolved as failure. -/
def exObj2 : ObjectM := ⟨[], none, [], some exOmap2, [some none]⟩

/-- A sub-object context holding the symbol `"f"` at local address 7. -/
def exCtx : CtxM := ⟨[(strBytes "f", 7)]⟩

/-- An object whose single cache slot is already resolved to `exCtx`. -/
def exObj3 : ObjectM := ⟨[], none, [], some exOmap2, [some (some exCtx)]⟩

/-- A concrete fat (universal) image: 32-bit fat magic, one architecture
descriptor with CPU type 7 whose slice `(28, 32)` holds a little-endian
64-bit thin image. -/
def exFat : List Nat :=
  [0xbe, 0xba, 0xfe, 0xca,
   0, 0, 0, 1,
   0, 0, 0, 7,
   0, 0, 0, 0,
   0, 0, 0, 28,
   0, 0, 0, 32,
   0, 0, 0, 0,
   0xcf, 0xfa, 0xed, 0xfe] ++ List.replicate 28 0

/-- A world for C8's counterexample: the target `t` (UUID 1, parsable)
has a sibling `a.dSYM` whose DWARF directory holds the candidate `y` with
the matching UUID 1 — but `y` fails to parse into a context. -/
def exWorld : WorldM :=
  { parentOf := fun p => if p = [strBytes "t"] then some [] else none,
    readDir := fun p =>
      if p = [] then some [Except.ok ⟨some (strBytes "a.dSYM"), [strBytes "a.dSYM"]⟩]
      else if p = [strBytes "a.dSYM"] ++ dwarfSubdir then
        some [Except.ok ⟨some (strBytes "y"), [strBytes "y"]⟩]
      else none,
    probe := fun p =>
      if p = [strBytes "t"] then some (1, some ⟨[]⟩)
      else if p = [strBytes "y"] then some (1, none)
      else none }

/-- A world where the target `t` (UUID 1, parsable) has a parent
directory whose enumeration yields an error entry. -/
def exWorldErr : WorldM :=
  { parentOf := fun p => if p = [strBytes "t"] then some [] else none,
    readDir := fun p => if p = [] then some [Except.error ()] else none,
    probe := fun p => if p = [strBytes "t"] then some (1, some ⟨[]⟩) else none }

/-- A world where the target `t`'s sibling `a.dSYM` lists the candidate
`bad` (which fails to map) before the candidate `good` (whose UUID
matches the target's and which parses). -/
def exWorldSkip : WorldM :=
  { parentOf := fun p => if p = [strBytes "t"] then some [] else none,
    readDir := fun p =>
      if p = [] then some [Except.ok ⟨some (strBytes "a.dSYM"), [strBytes "a.dSYM"]⟩]
      else if p = [strBytes "a.dSYM"] ++ dwarfSubdir then
        some [Except.ok ⟨some (strBytes "bad"), [strBytes "bad"]⟩,
          Except.ok ⟨some (strBytes "good"), [strBytes "good"]⟩]
      else none,
    probe := fun p =>
      if p = [strBytes "t"] then some (1, some ⟨[]⟩)
      else if p = [strBytes "good"] then some (1, some ⟨[(strBytes "g", 3)]⟩)
      else none }

/-- The `b.dSYM` sibling entry of the world `exWorld4`. -/
def entB : DirEntM := ⟨some (strBytes "b.dSYM"), [strBytes "b.dSYM"]⟩

/-- The candidate entry inside `b.dSYM`'s DWARF directory. -/
def entZ : DirEntM := ⟨some (strBytes "z"), [strBytes "z"]⟩

/-- A clean world whose single sibling `b.dSYM` holds the matching,
parsable candidate `z`. -/
def exWorld4 : WorldM :=
  { parentOf := fun p => if p = [strBytes "t"] then some [] else none,
    readDir := fun p =>
      if p = [] then some [Except.ok entB]
      else if p = entB.path ++ dwarfSubdir then some [Except.ok entZ]
      else none,
    probe := fun p =>
      if p = [strBytes "t"] then some (1, some ⟨[]⟩)
      else if p = entZ.path then some (1, some ⟨[(strBytes "g", 3)]⟩)
      else none }

/-! ## Theorems -/

/-! ### Helper lemmas about `split_archive_path` -/

theorem stripParenHead_eq_some {l r : ByteStr} :
    stripParenHead l = some r ↔ l = lparen :: r := by
  cases l with
  | nil => simp [stripParenHead]
  | cons b rest =>
    simp only [stripParenHead]
    by_cases hb : b = lparen
    · subst hb; simp
    · simp [hb, Ne.symm hb]

theorem stripParenTail_eq_some {l r : ByteStr} :
    stripParenTail l = some r ↔ l = r ++ [rparen] := by
  induction l using List.reverseRecOn with
  | nil => simp [stripParenTail]
  | append_singleton xs x _ =>
    simp only [stripParenTail, List.getLast?_concat, List.dropLast_concat]
    by_cases hx : x = rparen
    · subst hx
      constructor
      · rintro h; cases h; rfl
      · intro h
        have := List.append_inj h (by
          have := congrArg List.length h
          simpa using this)
        simp [this.1]
    · simp only [if_neg hx]
      constructor
      · rintro ⟨⟩
      · intro h
        exact absurd (by simpa using congrArg List.getLast? h) hx

theorem findIdx?_append_lparen (a rest : ByteStr) (ha : lparen ∉ a) :
    (a ++ lparen :: rest).findIdx? (fun b => b == lparen) = some a.length := by
  induction a with
  | nil => simp [List.findIdx?_cons]
  | cons x a ih =>
    have hx : (x == lparen) = false := by
      simp only [beq_eq_false_iff_ne, ne_eq]
      intro h; exact ha (by simp [h])
    rw [List.cons_append, List.findIdx?_cons, hx, if_neg (by simp), List.findIdx?_succ,
      ih (fun h => ha (List.mem_cons_of_mem _ h))]
    simp

/-- Full characterization of `split_archive_path`: it succeeds exactly on
inputs of the shape `archive ++ "(" ++ member ++ ")"` where the archive
part contains no `(` (so the split happens at the first `(`) and the `)`
is the final byte. -/
theorem splitSome_iff (p a m : ByteStr) :
    split_archive_path p = some (a, m) ↔ lparen ∉ a ∧ p = a ++ lparen :: (m ++ [rparen]) := by
  constructor
  · intro h
    unfold split_archive_path at h
    cases hIdx : p.findIdx? (fun b => b == lparen) with
    | none => rw [hIdx] at h; exact absurd h (by simp)
    | some idx =>
      rw [hIdx] at h
      simp only at h
      cases hH : stripParenHead (p.drop idx) with
      | none => rw [hH] at h; exact absurd h (by simp)
      | some rest1 =>
        rw [hH] at h
        simp only at h
        cases hT : stripParenTail rest1 with
        | none => rw [hT] at h; exact absurd h (by simp)
        | some member =>
          rw [hT] at h
          simp only [Option.some_inj, Prod.mk.injEq] at h
          obtain ⟨ha, hm⟩ := h
          subst ha; subst hm
          have hdrop := stripParenHead_eq_some.mp hH
          have hrest1 := stripParenTail_eq_some.mp hT
          obtain ⟨hlt, hfi⟩ := List.findIdx?_eq_some_iff_findIdx_eq.mp hIdx
          constructor
          · intro hmem
            obtain ⟨n, hn, hget⟩ := List.mem_iff_getElem.mp hmem
            have hn' : n < idx := by
              have := (List.length_take idx p ▸ hn)
              omega
            have hnp : n < p.length := by omega
            have : (p[n] == lparen) = false := by
              have := @List.not_of_lt_findIdx _ (fun b => b == lparen) p n (by omega)
              exact this
            rw [List.getElem_take] at hget
            simp [hget] at this
          · conv_lhs => rw [← List.take_append_drop idx p]
            rw [hdrop, hrest1]
  · rintro ⟨ha, hp⟩
    subst hp
    unfold split_archive_path
    rw [findIdx?_append_lparen _ _ ha]
    simp only [List.take_left, List.drop_left]
    rw [stripParenHead_eq_some.mpr rfl]
    simp only
    rw [stripParenTail_eq_some.mpr rfl]

/-! ### Binary search correctness (for C1) -/

/-- Loop invariant of `binSearchGo`: on sorted keys, any fuel at least
`r - l` and entry bounds with everything below `l` strictly below the key
and everything at or above `r` strictly above it, `Ok i` lands on an index
holding the key and `Err l'` yields an insertion point with everything
below it strictly below the key and everything at or above it strictly
above. -/
theorem binSearchGo_correct (keys : List Nat) (key : Nat)
    (hsorted : keys.Pairwise (· ≤ ·)) :
    ∀ fuel l r, r ≤ keys.length → l ≤ keys.length → r - l ≤ fuel →
      (∀ j, j < l → keys.getD j 0 < key) →
      (∀ j, r ≤ j → j < keys.length → key < keys.getD j 0) →
      (∀ i, binSearchGo keys key fuel l r = Sum.inl i →
          i < keys.length ∧ keys.getD i 0 = key) ∧
      (∀ l', binSearchGo keys key fuel l r = Sum.inr l' →
          l' ≤ keys.length ∧ (∀ j, j < l' → keys.getD j 0 < key) ∧
          (∀ j, l' ≤ j → j < keys.length → key < keys.getD j 0)) := by
  have hmono : ∀ i j, i ≤ j → j < keys.length → keys.getD i 0 ≤ keys.getD j 0 := by
    intro i j hij hj
    rcases Nat.eq_or_lt_of_le hij with h | h
    · subst h; exact le_refl _
    · rw [List.getD_eq_getElem _ _ (by omega), List.getD_eq_getElem _ _ hj]
      exact List.pairwise_iff_getElem.mp hsorted i j (by omega) hj h
  intro fuel
  induction fuel with
  | zero =>
    intro l r hr hl hfuel hlow hhigh
    constructor
    · intro i hi; exact absurd hi (by simp [binSearchGo])
    · intro l' hl'
      have : l' = l := by simpa [binSearchGo] using hl'.symm
      subst this
      exact ⟨hl, hlow, fun j hj hjlen => hhigh j (by omega) hjlen⟩
  | succ fuel ih =>
    intro l r hr hl hfuel hlow hhigh
    by_cases hlr : l < r
    · have hmidlt : l + (r - l) / 2 < r := by omega
      have hmidle : l ≤ l + (r - l) / 2 := by omega
      set mid := l + (r - l) / 2 with hmid
      have hmidlen : mid < keys.length := by omega
      rw [show binSearchGo keys key (fuel + 1) l r
          = (if keys.getD mid 0 < key then binSearchGo keys key fuel (mid + 1) r
             else if key < keys.getD mid 0 then binSearchGo keys key fuel l mid
             else Sum.inl mid) by simp [binSearchGo, hlr]]
      by_cases hk1 : keys.getD mid 0 < key
      · rw [if_pos hk1]
        exact ih (mid + 1) r hr (by omega) (by omega)
          (fun j hj => lt_of_le_of_lt (hmono j mid (by omega) hmidlen) hk1)
          hhigh
      · rw [if_neg hk1]
        by_cases hk2 : key < keys.getD mid 0
        · rw [if_pos hk2]
          exact ih l mid (by omega) hl (by omega) hlow
            (fun j hj hjlen => lt_of_lt_of_le hk2 (hmono mid j hj hjlen))
        · rw [if_neg hk2]
          constructor
          · intro i hi
            cases hi
            exact ⟨hmidlen, by omega⟩
          · intro l' hl'; cases hl'
    · have heq : binSearchGo keys key (fuel + 1) l r = Sum.inr l := by
        simp [binSearchGo, hlr]
      rw [heq]
      constructor
      · intro i hi; cases hi
      · intro l' hl'
        cases hl'
        exact ⟨hl, hlow, fun j hj hjlen => hhigh j (by omega) hjlen⟩

/-! ### Claims C5 and C10 -/

/-- C5: `split_archive_path` splits a composite path at its first `(` into
the archive path before it and the member name enclosed by that `(` and a
closing `)`; `split_archive_path("libfoo.a(bar.o)")` yields archive
`"libfoo.a"` and member `"bar.o"`, and `split_archive_path("bar.o")`
yields nothing. -/
theorem split_archive_path_spec :
    split_archive_path (strBytes "libfoo.a(bar.o)")
        = some (strBytes "libfoo.a", strBytes "bar.o") ∧
    split_archive_path (strBytes "bar.o") = none ∧
    ∀ p a m : ByteStr,
      split_archive_path p = some (a, m) ↔ lparen ∉ a ∧ p = a ++ lparen :: (m ++ [rparen]) :=
  ⟨by decide, by decide, splitSome_iff⟩

/-- C10: `split_archive_path` returns a split only when the input's final
byte is a closing `)`: inputs containing a `(` but not ending with `)`
(such as `"libfoo.a(bar.o)x"` or `"libfoo.a(bar.o"`) yield nothing, and
the member is everything strictly between the first `(` and that final
`)`, even if it itself contains parentheses. -/
theorem split_archive_path_closing :
    split_archive_path (strBytes "libfoo.a(bar.o)x") = none ∧
    split_archive_path (strBytes "libfoo.a(bar.o") = none ∧
    split_archive_path (strBytes "lib.a(x(y).o)") = some (strBytes "lib.a", strBytes "x(y).o") ∧
    (∀ p : ByteStr, lparen ∈ p → p.getLast? ≠ some rparen → split_archive_path p = none) ∧
    (∀ p a m : ByteStr, split_archive_path p = some (a, m) →
      p.getLast? = some rparen ∧
      ∀ idx, p.findIdx? (fun b => b == lparen) = some idx →
        a = p.take idx ∧ m = (p.drop (idx + 1)).dropLast) := by
  refine ⟨by decide, by decide, by decide, ?_, ?_⟩
  · intro p _ h
    cases hs : split_archive_path p with
    | none => rfl
    | some pr =>
      obtain ⟨a, m⟩ := pr
      obtain ⟨-, hp⟩ := (splitSome_iff p a m).mp hs
      refine absurd ?_ h
      rw [hp, show a ++ lparen :: (m ++ [rparen]) = (a ++ lparen :: m) ++ [rparen] by simp,
        List.getLast?_concat]
  · intro p a m h
    obtain ⟨ha, hp⟩ := (splitSome_iff p a m).mp h
    have hshape : p = (a ++ lparen :: m) ++ [rparen] := by simp [hp]
    refine ⟨by rw [hshape, List.getLast?_concat], ?_⟩
    intro idx hidx
    rw [hp, findIdx?_append_lparen _ _ ha] at hidx
    have hidx' : idx = a.length := by simpa using hidx.symm
    subst hidx'
    constructor
    · rw [hp, List.take_left]
    · have hdrop : p.drop (a.length + 1) = m ++ [rparen] := by
        rw [hp, show a ++ lparen :: (m ++ [rparen]) = (a ++ [lparen]) ++ (m ++ [rparen]) by simp,
          show a.length + 1 = (a ++ [lparen]).length by simp, List.drop_left]
      rw [hdrop, List.dropLast_concat]

/-- Witness for C10: the theorem applied at the concrete inputs
`"a(b"` (a `(` but no trailing `)`) and `"libfoo.a(bar.o)"`. -/
theorem split_archive_path_closing_witness :
    split_archive_path (strBytes "a(b") = none ∧
    (strBytes "libfoo.a(bar.o)").getLast? = some rparen :=
  ⟨split_archive_path_closing.2.2.2.1 (strBytes "a(b") (by decide) (by decide),
    (split_archive_path_closing.2.2.2.2 (strBytes "libfoo.a(bar.o)")
      (strBytes "libfoo.a") (strBytes "bar.o") (by decide)).1⟩

/-! ### Claim C1 -/

/-- C1: for every symbol list sorted ascending by address,
`search_symtab(addr)` returns the name of an entry with the greatest
stored address less than or equal to `addr`, and returns nothing when
`addr` is strictly smaller than every stored address (in particular when
the list is empty). -/
theorem search_symtab_floor (o : ObjectM)
    (hs : o.syms.Pairwise (fun p q => p.2 ≤ q.2)) (addr : Nat) :
    ((∀ p ∈ o.syms, addr < p.2) → Object.search_symtab o addr = none) ∧
    ((∃ p ∈ o.syms, p.2 ≤ addr) →
      ∃ i, ∃ hi : i < o.syms.length,
        Object.search_symtab o addr = some ((o.syms[i]).1) ∧ (o.syms[i]).2 ≤ addr ∧
        ∀ q ∈ o.syms, q.2 ≤ addr → q.2 ≤ (o.syms[i]).2) := by
  have hlen : (o.syms.map Prod.snd).length = o.syms.length := by simp
  have hksorted : (o.syms.map Prod.snd).Pairwise (· ≤ ·) := List.pairwise_map.mpr hs
  have hgetD : ∀ i, ∀ _h : i < o.syms.length, (o.syms.map Prod.snd).getD i 0 = (o.syms[i]).2 := by
    intro i h
    rw [List.getD_eq_getElem _ _ (by simpa using h), List.getElem_map]
  have hsymmono : ∀ i j, ∀ _hi : i < o.syms.length, ∀ _hj : j < o.syms.length,
      i ≤ j → (o.syms[i]).2 ≤ (o.syms[j]).2 := by
    intro i j hi hj hij
    rcases Nat.eq_or_lt_of_le hij with h | h
    · subst h; exact le_refl _
    · exact List.pairwise_iff_getElem.mp hs i j hi hj h
  have hcorrect := binSearchGo_correct (o.syms.map Prod.snd) addr hksorted
    (o.syms.map Prod.snd).length 0 (o.syms.map Prod.snd).length
    (le_refl _) (by omega) (by omega)
    (by intro j hj; omega)
    (by intro j h1 h2; omega)
  cases hb : binary_search_by_key (o.syms.map Prod.snd) addr with
  | inl i =>
    obtain ⟨hilen, hikey⟩ := hcorrect.1 i hb
    have hilen' : i < o.syms.length := by omega
    have hikey' : (o.syms[i]).2 = addr := by rw [← hgetD i hilen']; exact hikey
    have hsearch : Object.search_symtab o addr = some ((o.syms[i]).1) := by
      unfold Object.search_symtab
      rw [hb]
      simp [List.getElem?_eq_getElem hilen']
    constructor
    · intro hall
      exact absurd (hikey' ▸ hall (o.syms[i]) (List.getElem_mem hilen')) (by omega)
    · intro _
      exact ⟨i, hilen', hsearch, by omega, fun q _hq hqle => by omega⟩
  | inr l' =>
    obtain ⟨hl'len, hlow, hhigh⟩ := hcorrect.2 l' hb
    cases l' with
    | zero =>
      have hsearch : Object.search_symtab o addr = none := by
        unfold Object.search_symtab
        rw [hb]
      refine ⟨fun _ => hsearch, ?_⟩
      rintro ⟨p, hp, hple⟩
      obtain ⟨n, hn, hget⟩ := List.mem_iff_getElem.mp hp
      have := hhigh n (by omega) (by omega)
      rw [hgetD n hn, hget] at this
      omega
    | succ j =>
      have hjlen : j < o.syms.length := by omega
      have hjlow := hlow j (by omega)
      rw [hgetD j hjlen] at hjlow
      have hsearch : Object.search_symtab o addr = some ((o.syms[j]).1) := by
        unfold Object.search_symtab
        rw [hb]
        simp [List.getElem?_eq_getElem hjlen]
      constructor
      · intro hall
        exact absurd (hall (o.syms[j]) (List.getElem_mem hjlen)) (by omega)
      · intro _
        refine ⟨j, hjlen, hsearch, by omega, ?_⟩
        intro q hq hqle
        obtain ⟨n, hn, hget⟩ := List.mem_iff_getElem.mp hq
        by_cases hnj : n ≤ j
        · rw [← hget]
          exact hsymmono n j hn hjlen hnj
        · have := hhigh n (by omega) (by omega)
          rw [hgetD n hn, hget] at this
          omega

/-- Witness for C1: the theorem applied to a concrete two-entry sorted
symbol list at query address 6. -/
theorem search_symtab_floor_witness :
    ∃ i, ∃ hi : i < exSyms.length,
      Object.search_symtab ⟨[], none, exSyms, none, []⟩ 6 = some ((exSyms[i]).1) ∧
      (exSyms[i]).2 ≤ 6 ∧ ∀ q ∈ exSyms, q.2 ≤ 6 → q.2 ≤ (exSyms[i]).2 :=
  (search_symtab_floor ⟨[], none, exSyms, none, []⟩ (by decide) 6).2
    ⟨(strBytes "b", 5), by decide, by decide⟩

/-! ### Scan lemmas for `Object::parse` (claims C2 and C9) -/

/-- An iterator error ends the scan exactly where it occurs: everything
after the first malformed load-command header is ignored. -/
theorem scanCommands_append_error (b : Bool) (post : List (Except Unit CommandM)) :
    ∀ pre st, scanCommands b (pre ++ Except.error () :: post) st = scanCommands b pre st := by
  intro pre
  induction pre with
  | nil => intro st; rfl
  | cons x pre ih =>
    intro st
    cases x with
    | error e => rfl
    | ok c =>
      show (match scanStep b st c with
        | none => none
        | some st1 => scanCommands b (pre ++ Except.error () :: post) st1)
        = (match scanStep b st c with
        | none => none
        | some st1 => scanCommands b pre st1)
      cases scanStep b st c with
      | none => rfl
      | some st1 => exact ih st1

/-- A command the step function rejects aborts the whole scan, provided no
iterator error hides it first. -/
theorem scanCommands_abort (b : Bool) (c : CommandM) (post : List (Except Unit CommandM))
    (hc : ∀ st, scanStep b st c = none) :
    ∀ pre st, Except.error () ∉ pre →
      scanCommands b (pre ++ Except.ok c :: post) st = none := by
  intro pre
  induction pre with
  | nil =>
    intro st _
    show (match scanStep b st c with
      | none => none
      | some st1 => scanCommands b post st1) = none
    rw [hc st]
  | cons x pre ih =>
    intro st hmem
    cases x with
    | error e =>
      cases e
      exact absurd (List.mem_cons_self _ _) hmem
    | ok c' =>
      show (match scanStep b st c' with
        | none => none
        | some st1 => scanCommands b (pre ++ Except.ok c :: post) st1) = none
      cases scanStep b st c' with
      | none => rfl
      | some st1 => exact ih st1 (fun hm => hmem (List.mem_cons_of_mem _ hm))

/-- Case analysis for one successful scan step: the resulting state is the
input state with either the `dwarf` field replaced (a relevant segment), or
nothing replaced (another segment or an uninteresting command), or the
symbol fields replaced (a successful symbol table). -/
theorem scanStep_shapes (b : Bool) (st st1 : ScanState) (c : CommandM)
    (h : scanStep b st c = some st1) :
    (∃ sec, st1 = { st with dwarf := sec }) ∨
    (∃ T, c = CommandM.symtab (.ok T) ∧
      st1 = { st with
        syms := (T.nlists.filterMap decodeNlist).mergeSort symLe,
        object_map := if b then st.object_map else some T.omap,
        object_mappings := if b then st.object_mappings
          else List.replicate T.omap.objects.length none }) := by
  cases c with
  | segment name sections =>
    have h' : (if name = dwarfSegName ∨ (b = true ∧ name = []) then
        some { st with dwarf := sections.toOption } else some st) = some st1 := h
    split at h'
    · cases h'; exact Or.inl ⟨_, rfl⟩
    · cases h'; exact Or.inl ⟨st.dwarf, rfl⟩
  | segmentErr => cases h
  | symtab t =>
    cases t with
    | error e => cases h
    | ok T =>
      have h' : (if b then some { st with syms := (T.nlists.filterMap decodeNlist).mergeSort symLe }
          else some { st with
            syms := (T.nlists.filterMap decodeNlist).mergeSort symLe,
            object_map := some T.omap,
            object_mappings := List.replicate T.omap.objects.length none }) = some st1 := h
      refine Or.inr ⟨T, rfl, ?_⟩
      cases b with
      | false => cases h'; rfl
      | true => cases h'; rfl
  | symtabErr => cases h
  | other =>
    have h' : some st = some st1 := h
    cases h'
    exact Or.inl ⟨st.dwarf, rfl⟩

/-- Scanning a stream with no successful symbol-table command leaves the
symbol list, debug map and cache untouched. -/
theorem scanCommands_no_symtab (b : Bool) :
    ∀ cmds st st', (∀ T, Except.ok (CommandM.symtab (.ok T)) ∉ cmds) →
      scanCommands b cmds st = some st' →
      st'.syms = st.syms ∧ st'.object_map = st.object_map ∧
        st'.object_mappings = st.object_mappings := by
  intro cmds
  induction cmds with
  | nil =>
    intro st st' _ h
    cases h
    exact ⟨rfl, rfl, rfl⟩
  | cons x rest ih =>
    intro st st' hno h
    have htail : ∀ T, Except.ok (CommandM.symtab (.ok T)) ∉ rest :=
      fun T hm => hno T (List.mem_cons_of_mem _ hm)
    cases x with
    | error e =>
      cases e
      have h' : some st = some st' := h
      cases h'
      exact ⟨rfl, rfl, rfl⟩
    | ok c =>
      have h' : (match scanStep b st c with
        | none => none
        | some st1 => scanCommands b rest st1) = some st' := h
      cases hstep : scanStep b st c with
      | none => rw [hstep] at h'; cases h'
      | some st1 =>
        rw [hstep] at h'
        rcases scanStep_shapes b st st1 c hstep with ⟨sec, hshape⟩ | ⟨T, hT, -⟩
        · subst hshape
          exact ih { st with dwarf := sec } st' htail h'
        · exact absurd (hT ▸ List.mem_cons_self _ _) (hno T)

/-- After the last successful symbol-table command of the stream, the final
scan state carries exactly that command's sorted symbols and (for a linked
image) its debug map and freshly allocated cache. -/
theorem scanCommands_last_symtab (b : Bool) (T : SymtabM)
    (post : List (Except Unit CommandM))
    (hpost : ∀ T', Except.ok (CommandM.symtab (.ok T')) ∉ post) :
    ∀ pre st st', Except.error () ∉ pre →
      scanCommands b (pre ++ Except.ok (CommandM.symtab (.ok T)) :: post) st = some st' →
      st'.syms = (T.nlists.filterMap decodeNlist).mergeSort symLe ∧
      (b = false → st'.object_map = some T.omap ∧
        st'.object_mappings = List.replicate T.omap.objects.length none) := by
  intro pre
  induction pre with
  | nil =>
    intro st st' _ h
    have h' : (match scanStep b st (CommandM.symtab (.ok T)) with
      | none => none
      | some st1 => scanCommands b post st1) = some st' := h
    cases b with
    | false =>
      rw [show scanStep false st (CommandM.symtab (.ok T))
          = some { st with
              syms := (T.nlists.filterMap decodeNlist).mergeSort symLe,
              object_map := some T.omap,
              object_mappings := List.replicate T.omap.objects.length none } from rfl] at h'
      obtain ⟨h1, h2, h3⟩ := scanCommands_no_symtab false post _ st' hpost h'
      exact ⟨h1, fun _ => ⟨h2, h3⟩⟩
    | true =>
      rw [show scanStep true st (CommandM.symtab (.ok T))
          = some { st with syms := (T.nlists.filterMap decodeNlist).mergeSort symLe }
          from rfl] at h'
      obtain ⟨h1, -, -⟩ := scanCommands_no_symtab true post _ st' hpost h'
      exact ⟨h1, fun hb => absurd hb (by simp)⟩
  | cons x pre ih =>
    intro st st' hmem h
    cases x with
    | error e =>
      cases e
      exact absurd (List.mem_cons_self _ _) hmem
    | ok c =>
      have h' : (match scanStep b st c with
        | none => none
        | some st1 => scanCommands b (pre ++ Except.ok (CommandM.symtab (.ok T)) :: post) st1)
        = some st' := h
      cases hstep : scanStep b st c with
      | none => rw [hstep] at h'; cases h'
      | some st1 =>
        rw [hstep] at h'
        exact ih st1 st' (fun hm => hmem (List.mem_cons_of_mem _ hm)) h'

/-- Sortedness invariant of the scan: the symbol list in the scan state is
always sorted ascending by address. -/
theorem scanCommands_sorted (b : Bool) :
    ∀ cmds st st', st.syms.Pairwise (fun p q => p.2 ≤ q.2) →
      scanCommands b cmds st = some st' →
      st'.syms.Pairwise (fun p q => p.2 ≤ q.2) := by
  intro cmds
  induction cmds with
  | nil =>
    intro st st' hs h
    cases h
    exact hs
  | cons x rest ih =>
    intro st st' hs h
    cases x with
    | error e =>
      have h' : some st = some st' := h
      cases h'
      exact hs
    | ok c =>
      have h' : (match scanStep b st c with
        | none => none
        | some st1 => scanCommands b rest st1) = some st' := h
      cases hstep : scanStep b st c with
      | none => rw [hstep] at h'; cases h'
      | some st1 =>
        rw [hstep] at h'
        refine ih st1 st' ?_ h'
        rcases scanStep_shapes b st st1 c hstep with ⟨sec, hshape⟩ | ⟨T, -, hshape⟩
        · subst hshape; exact hs
        · subst hshape
          have := @List.sorted_mergeSort _ symLe
            (fun a b c hab hbc => by
              simp only [symLe, decide_eq_true_eq] at hab hbc ⊢; omega)
            (fun a b => by
              rcases Nat.le_total a.2 b.2 with hab | hab <;> simp [symLe, hab])
            (T.nlists.filterMap decodeNlist)
          exact this.imp (fun h => by simpa [symLe] using h)

/-- A scan of a relocatable object (`is_object = true`) never creates a
debug map or cache. -/
theorem scanCommands_object_no_map :
    ∀ cmds st st', scanCommands true cmds st = some st' →
      st'.object_map = st.object_map ∧ st'.object_mappings = st.object_mappings := by
  intro cmds
  induction cmds with
  | nil =>
    intro st st' h
    cases h
    exact ⟨rfl, rfl⟩
  | cons x rest ih =>
    intro st st' h
    cases x with
    | error e =>
      have h' : some st = some st' := h
      cases h'
      exact ⟨rfl, rfl⟩
    | ok c =>
      have h' : (match scanStep true st c with
        | none => none
        | some st1 => scanCommands true rest st1) = some st' := h
      cases hstep : scanStep true st c with
      | none => rw [hstep] at h'; cases h'
      | some st1 =>
        rw [hstep] at h'
        obtain ⟨h1, h2⟩ := ih st1 st' h'
        rcases scanStep_shapes true st st1 c hstep with ⟨sec, hshape⟩ | ⟨T, -, hshape⟩
        · subst hshape; exact ⟨h1, h2⟩
        · subst hshape
          simp only [if_pos rfl] at h1 h2
          exact ⟨h1, h2⟩

/-- `search_object_map` only ever rewrites the `object_mappings` cache. -/
theorem search_object_map_state (resolve : ByteStr → Option CtxM) (o : ObjectM) (addr : Nat) :
    ∃ m, (Object.search_object_map resolve o addr).2.1 = { o with object_mappings := m } := by
  unfold Object.search_object_map
  repeat' split
  all_goals exact ⟨_, rfl⟩

/-! ### Claim C2 (corrected) -/

/-- C2 counterexample: a malformed load-command header in the middle of
the stream (the `Except.error ()` element) does not make `Object::parse`
return no result, contrary to the claim; the scan silently stops there and
a partial `Object` carrying the DWARF table scanned before the failure is
returned. -/
theorem parse_partial_on_iterator_error :
    (Object.parse 2 (.ok [Except.ok (CommandM.segment dwarfSegName
        (.ok [⟨strBytes "__debug_info", 0, 0⟩])), Except.error ()]) []).map ObjectM.dwarf
      = some (some [⟨strBytes "__debug_info", 0, 0⟩]) := by decide

/-- C2 (amended): a failure while constructing the load-command reader, or
a malformed segment command, a malformed symbol-table command or an
undecodable symbol list anywhere in the scan aborts `Object::parse` with no
result; but an error from the load-command iterator itself (a malformed
load-command header mid-stream) merely ends the scan, and parse returns
the Object built from the commands before it. -/
theorem parse_scan_failure_semantics (ft : Nat) (data : List Nat)
    (pre post : List (Except Unit CommandM)) :
    Object.parse ft (.error ()) data = none ∧
    Object.parse ft (.ok (pre ++ Except.error () :: post)) data
      = Object.parse ft (.ok pre) data ∧
    (∀ c : CommandM,
      c = CommandM.segmentErr ∨ c = CommandM.symtabErr ∨ c = CommandM.symtab (.error ()) →
      Except.error () ∉ pre →
      Object.parse ft (.ok (pre ++ Except.ok c :: post)) data = none) := by
  refine ⟨rfl, ?_, ?_⟩
  · show (match scanCommands (ft == MH_OBJECT) (pre ++ Except.error () :: post)
        ⟨none, [], none, []⟩ with
      | none => none
      | some st => some (⟨data, st.dwarf, st.syms, st.object_map, st.object_mappings⟩ : ObjectM))
      = Object.parse ft (.ok pre) data
    rw [scanCommands_append_error]
    rfl
  · intro c hc hpre
    have hfail : ∀ st, scanStep (ft == MH_OBJECT) st c = none := by
      rcases hc with h | h | h <;> subst h <;> intro st <;> rfl
    show (match scanCommands (ft == MH_OBJECT) (pre ++ Except.ok c :: post)
        ⟨none, [], none, []⟩ with
      | none => none
      | some st => some (⟨data, st.dwarf, st.syms, st.object_map, st.object_mappings⟩ : ObjectM))
      = none
    rw [scanCommands_abort _ c post hfail pre _ hpre]

/-- Witness for the amended C2: a stream holding one harmless command and
then a malformed segment command parses to nothing. -/
theorem parse_scan_failure_semantics_witness :
    Object.parse 2 (.ok [Except.ok CommandM.other, Except.ok CommandM.segmentErr]) [] = none := by
  have h := (parse_scan_failure_semantics 2 [] [Except.ok CommandM.other] []).2.2
    CommandM.segmentErr (Or.inl rfl) (by simp)
  simpa using h

/-! ### Claim C9 -/

/-- C9: after a successful `Object::parse`, the symbol list holds exactly
the entries of the (last) symbol-table command that decode to a non-empty
name and a definition, sorted ascending by address; for a non-relocatable
file the object-mapping cache is allocated with one `Unresolved` (`none`)
slot per debug-map object, while a relocatable object gets no debug map
and no cache; and `search_object_map` never mutates the symbol list, the
DWARF table, the debug map or the image data afterwards. -/
theorem parse_postconditions :
    (∀ ft cmds data o, Object.parse ft (.ok cmds) data = some o →
      o.syms.Pairwise (fun p q => p.2 ≤ q.2)) ∧
    (∀ ft data pre post T o,
      Except.error () ∉ pre →
      (∀ T', Except.ok (CommandM.symtab (.ok T')) ∉ post) →
      Object.parse ft (.ok (pre ++ Except.ok (CommandM.symtab (.ok T)) :: post)) data
        = some o →
      o.syms.Perm (T.nlists.filterMap decodeNlist) ∧
      (ft ≠ MH_OBJECT →
        o.object_map = some T.omap ∧
        o.object_mappings = List.replicate T.omap.objects.length none)) ∧
    (∀ cmds data o, Object.parse MH_OBJECT (.ok cmds) data = some o →
      o.object_map = none ∧ o.object_mappings = []) ∧
    (∀ resolve o addr,
      (Object.search_object_map resolve o addr).2.1.syms = o.syms ∧
      (Object.search_object_map resolve o addr).2.1.dwarf = o.dwarf ∧
      (Object.search_object_map resolve o addr).2.1.object_map = o.object_map ∧
      (Object.search_object_map resolve o addr).2.1.data = o.data) := by
  refine ⟨?_, ?_, ?_, ?_⟩
  · intro ft cmds data o h
    have h' : (match scanCommands (ft == MH_OBJECT) cmds ⟨none, [], none, []⟩ with
      | none => none
      | some st => some (⟨data, st.dwarf, st.syms, st.object_map, st.object_mappings⟩ : ObjectM))
      = some o := h
    cases hscan : scanCommands (ft == MH_OBJECT) cmds ⟨none, [], none, []⟩ with
    | none => rw [hscan] at h'; cases h'
    | some st =>
      rw [hscan] at h'
      have ho : o = ⟨data, st.dwarf, st.syms, st.object_map, st.object_mappings⟩ := by
        cases h'; rfl
      subst ho
      exact scanCommands_sorted _ cmds _ st (by simp) hscan
  · intro ft data pre post T o hpre hpost h
    have h' : (match scanCommands (ft == MH_OBJECT)
        (pre ++ Except.ok (CommandM.symtab (.ok T)) :: post) ⟨none, [], none, []⟩ with
      | none => none
      | some st => some (⟨data, st.dwarf, st.syms, st.object_map, st.object_mappings⟩ : ObjectM))
      = some o := h
    cases hscan : scanCommands (ft == MH_OBJECT)
        (pre ++ Except.ok (CommandM.symtab (.ok T)) :: post) ⟨none, [], none, []⟩ with
    | none => rw [hscan] at h'; cases h'
    | some st =>
      rw [hscan] at h'
      have ho : o = ⟨data, st.dwarf, st.syms, st.object_map, st.object_mappings⟩ := by
        cases h'; rfl
      subst ho
      obtain ⟨h1, h2⟩ := scanCommands_last_symtab (ft == MH_OBJECT) T post hpost pre _ st hpre hscan
      refine ⟨?_, ?_⟩
      · show st.syms.Perm _
        rw [h1]
        exact List.mergeSort_perm _ _
      · intro hne
        have hb : (ft == MH_OBJECT) = false := by
          simpa using hne
        obtain ⟨h3, h4⟩ := h2 hb
        exact ⟨h3, h4⟩
  · intro cmds data o h
    have h' : (match scanCommands true cmds ⟨none, [], none, []⟩ with
      | none => none
      | some st => some (⟨data, st.dwarf, st.syms, st.object_map, st.object_mappings⟩ : ObjectM))
      = some o := h
    cases hscan : scanCommands true cmds ⟨none, [], none, []⟩ with
    | none => rw [hscan] at h'; cases h'
    | some st =>
      rw [hscan] at h'
      have ho : o = ⟨data, st.dwarf, st.syms, st.object_map, st.object_mappings⟩ := by
        cases h'; rfl
      subst ho
      exact scanCommands_object_no_map cmds _ st hscan
  · intro resolve o addr
    obtain ⟨m, hm⟩ := search_object_map_state resolve o addr
    rw [hm]
    exact ⟨rfl, rfl, rfl, rfl⟩

/-- Witness for C9: the content-and-cache conjunct applied to a concrete
one-command stream for a linked image (filetype 2). -/
theorem parse_postconditions_witness :
    (⟨[], none, [], some exOmap, [none]⟩ : ObjectM).syms.Perm
      (exSymtabT.nlists.filterMap decodeNlist) ∧
    ((2 : Nat) ≠ MH_OBJECT →
      (⟨[], none, [], some exOmap, [none]⟩ : ObjectM).object_map = some exSymtabT.omap ∧
      (⟨[], none, [], some exOmap, [none]⟩ : ObjectM).object_mappings
        = List.replicate exSymtabT.omap.objects.length none) :=
  parse_postconditions.2.1 2 [] [] [] exSymtabT ⟨[], none, [], some exOmap, [none]⟩
    (by simp) (fun T' => by simp)
    (by simp [Object.parse, scanCommands, scanStep, exSymtabT, exOmap, List.mergeSort_nil,
      MH_OBJECT])

/-! ### Claims C6 and C7 -/

/-- Reduction of `search_object_map` once the debug map and its entry for
the queried address are known. -/
theorem search_object_map_reduce (resolve : ByteStr → Option CtxM) (o : ObjectM) (addr : Nat)
    (om : OMapM) (s : OMSymbolM) (hom : o.object_map = some om) (hs : om.get addr = some s) :
    Object.search_object_map resolve o addr
      = (match o.object_mappings[s.object_index]? with
        | none => (none, o, 0)
        | some (some r0) => (finishLookup s r0 addr, o, 0)
        | some none =>
          (match om.objects[s.object_index]? with
          | none => (none, o, 0)
          | some path =>
            (finishLookup s (resolve path) addr,
              { o with object_mappings :=
                  o.object_mappings.set s.object_index (some (resolve path)) }, 1))) := by
  unfold Object.search_object_map
  rw [hom]
  simp only [hs]

theorem wadd_wsub (a b c : Nat) :
    wadd (wsub a b) c = (a % U64MOD + (U64MOD - b % U64MOD) + c) % U64MOD := by
  unfold wadd wsub
  rw [Nat.mod_add_mod]

/-- C6: `search_object_map` resolves each cache slot at most once.  An
already-resolved slot — success or failure — is answered from the cache
with zero calls to the `object_mapping` resolution step and no state
change (in particular a slot resolved as failure is never retried); a
single call performs at most one resolution; slots only ever transition
from `Unresolved` to `Resolved`; and two calls whose addresses belong to
the same originating object perform at most one resolution in total. -/
theorem search_object_map_memoizes (resolve : ByteStr → Option CtxM) (o : ObjectM)
    (om : OMapM) (addr1 addr2 : Nat) (s1 s2 : OMSymbolM)
    (hom : o.object_map = some om)
    (h1 : om.get addr1 = some s1) (h2 : om.get addr2 = some s2) :
    (∀ r0 : Option CtxM, o.object_mappings[s1.object_index]? = some (some r0) →
      Object.search_object_map resolve o addr1 = (finishLookup s1 r0 addr1, o, 0)) ∧
    (Object.search_object_map resolve o addr1).2.2 ≤ 1 ∧
    (∀ idx : Nat, (Object.search_object_map resolve o addr1).2.1.object_mappings[idx]?
        = o.object_mappings[idx]? ∨
      (o.object_mappings[idx]? = some none ∧
        ∃ r : Option CtxM, (Object.search_object_map resolve o addr1).2.1.object_mappings[idx]?
          = some (some r))) ∧
    (s1.object_index = s2.object_index →
      (Object.search_object_map resolve o addr1).2.2 +
        (Object.search_object_map resolve
          ((Object.search_object_map resolve o addr1).2.1) addr2).2.2 ≤ 1) := by
  have hred := search_object_map_reduce resolve o addr1 om s1 hom h1
  refine ⟨?_, ?_, ?_, ?_⟩
  · intro r0 hslot
    rw [hred, hslot]
  · rw [hred]
    cases hslot : o.object_mappings[s1.object_index]? with
    | none => simp
    | some r0 =>
      rcases r0 with - | cx
      · cases hobj : om.objects[s1.object_index]? with
        | none => simp
        | some path => simp
      · simp
  · intro idx
    rw [hred]
    cases hslot : o.object_mappings[s1.object_index]? with
    | none => exact Or.inl rfl
    | some r0 =>
      rcases r0 with - | cx
      · cases hobj : om.objects[s1.object_index]? with
        | none => exact Or.inl rfl
        | some path =>
          by_cases hidx : s1.object_index = idx
          · subst hidx
            refine Or.inr ⟨hslot, resolve path, ?_⟩
            show (o.object_mappings.set s1.object_index (some (resolve path)))[s1.object_index]?
              = some (some (resolve path))
            have hlt : s1.object_index < o.object_mappings.length := by
              by_contra hge
              rw [List.getElem?_eq_none (by omega)] at hslot
              cases hslot
            rw [List.getElem?_set, if_pos rfl, if_pos hlt]
          · refine Or.inl ?_
            show (o.object_mappings.set s1.object_index (some (resolve path)))[idx]?
              = o.object_mappings[idx]?
            rw [List.getElem?_set, if_neg hidx]
      · exact Or.inl rfl
  · intro hsame
    rw [hred]
    cases hslot : o.object_mappings[s1.object_index]? with
    | none =>
      have hred2 := search_object_map_reduce resolve o addr2 om s2 hom h2
      rw [hred2, ← hsame, hslot]
      simp
    | some r0 =>
      rcases r0 with - | cx
      · cases hobj : om.objects[s1.object_index]? with
        | none =>
          have hred2 := search_object_map_reduce resolve o addr2 om s2 hom h2
          rw [hred2, ← hsame, hslot, hobj]
          simp
        | some path =>
          set o' : ObjectM :=
            { o with object_mappings :=
                o.object_mappings.set s1.object_index (some (resolve path)) } with ho'
          have hom' : o'.object_map = some om := hom
          have hred2 := search_object_map_reduce resolve o' addr2 om s2 hom' h2
          have hlt : s1.object_index < o.object_mappings.length := by
            by_contra hge
            rw [List.getElem?_eq_none (by omega)] at hslot
            cases hslot
          have hslot' : o'.object_mappings[s2.object_index]? = some (some (resolve path)) := by
            show (o.object_mappings.set s1.object_index (some (resolve path)))[s2.object_index]?
              = some (some (resolve path))
            rw [List.getElem?_set, if_pos hsame.symm.symm]
            · rw [if_pos hlt]
          rw [hred2, hslot']
          simp
      · have hred2 := search_object_map_reduce resolve o addr2 om s2 hom h2
        rw [hred2, ← hsame, hslot]
        simp

/-- Witness for C6: on an object whose slot is already resolved as
failure, a call answers from the cache with no resolution and no state
change. -/
theorem search_object_map_memoizes_witness :
    Object.search_object_map (fun _ => none) exObj2 10
      = (finishLookup exOMSym none 10, exObj2, 0) :=
  (search_object_map_memoizes (fun _ => none) exObj2 exOmap2 10 11 exOMSym exOMSym
    rfl (by decide) (by decide)).1 none rfl

/-- C7: when the queried address has a debug-map entry whose originating
object resolves (from the cache or freshly) to a sub-object containing a
symbol with the identical name, `search_object_map` returns that
sub-object's context together with the address
`addr − (entry's linked-image address) + (symbol's local address)`
computed modulo `2 ^ 64`; when the sub-object has no symbol of that name
it returns nothing. -/
theorem search_object_map_translation (resolve : ByteStr → Option CtxM) (o : ObjectM)
    (om : OMapM) (addr : Nat) (s : OMSymbolM)
    (hom : o.object_map = some om) (hs : om.get addr = some s) :
    (∀ cx : CtxM, o.object_mappings[s.object_index]? = some (some (some cx)) →
      (∀ e, cx.syms.find? (fun os => os.1 == s.name) = some e →
        (Object.search_object_map resolve o addr).1
          = some (cx, (addr % U64MOD + (U64MOD - s.address % U64MOD) + e.2) % U64MOD)) ∧
      ((∀ e ∈ cx.syms, e.1 ≠ s.name) →
        (Object.search_object_map resolve o addr).1 = none)) ∧
    (∀ path cx, o.object_mappings[s.object_index]? = some none →
      om.objects[s.object_index]? = some path →
      resolve path = some cx →
      (∀ e, cx.syms.find? (fun os => os.1 == s.name) = some e →
        (Object.search_object_map resolve o addr).1
          = some (cx, (addr % U64MOD + (U64MOD - s.address % U64MOD) + e.2) % U64MOD)) ∧
      ((∀ e ∈ cx.syms, e.1 ≠ s.name) →
        (Object.search_object_map resolve o addr).1 = none)) := by
  have hred := search_object_map_reduce resolve o addr om s hom hs
  have hfin : ∀ cx : CtxM,
      (∀ e, cx.syms.find? (fun os => os.1 == s.name) = some e →
        finishLookup s (some cx) addr
          = some (cx, (addr % U64MOD + (U64MOD - s.address % U64MOD) + e.2) % U64MOD)) ∧
      ((∀ e ∈ cx.syms, e.1 ≠ s.name) → finishLookup s (some cx) addr = none) := by
    intro cx
    constructor
    · intro e hfind
      show (match cx.syms.find? (fun os => os.1 == s.name) with
        | none => none
        | some os => some (cx, wadd (wsub addr s.address) os.2)) = _
      rw [hfind]
      show some (cx, wadd (wsub addr s.address) e.2) = _
      rw [wadd_wsub]
    · intro hnone
      show (match cx.syms.find? (fun os => os.1 == s.name) with
        | none => none
        | some os => some (cx, wadd (wsub addr s.address) os.2)) = none
      rw [List.find?_eq_none.mpr (fun x hx => by simpa using hnone x hx)]
  constructor
  · intro cx hslot
    constructor
    · intro e hfind
      rw [hred, hslot]
      exact (hfin cx).1 e hfind
    · intro hnone
      rw [hred, hslot]
      exact (hfin cx).2 hnone
  · intro path cx hslot hobj hres
    constructor
    · intro e hfind
      rw [hred, hslot, hobj]
      show finishLookup s (resolve path) addr = _
      rw [hres]
      exact (hfin cx).1 e hfind
    · intro hnone
      rw [hred, hslot, hobj]
      show finishLookup s (resolve path) addr = none
      rw [hres]
      exact (hfin cx).2 hnone

/-- Witness for C7: the cached sub-object of `exObj3` holds the symbol
`"f"` at local address 7, so querying address 10 (entry address 4) yields
the translated address `(10 - 4 + 7) mod 2^64`. -/
theorem search_object_map_translation_witness :
    (Object.search_object_map (fun _ => none) exObj3 10).1
      = some (exCtx, (10 % U64MOD + (U64MOD - exOMSym.address % U64MOD) + 7) % U64MOD) :=
  ((search_object_map_translation (fun _ => none) exObj3 exOmap2 10 exOMSym
      rfl (by decide)).1 exCtx rfl).1 (strBytes "f", 7) (by decide)

/-! ### Claim C4 (corrected) -/

/-- C4 counterexample: an Object whose captured DWARF table holds an entry
whose stored name matches the query (`__debug_info` against
`.debug_info`) but whose recorded byte range lies outside the image: the
claim requires the entry's bytes to be returned, yet `section` returns
nothing, although a DWARF table was captured and an entry matches. -/
theorem section_out_of_range :
    Object.section_ ⟨[], some [⟨strBytes "__debug_info", 4, 4⟩], [], none, []⟩
        (strBytes ".debug_info") = none ∧
    sectionNameMatches (strBytes "__debug_info") (strBytes ".debug_info") = true ∧
    (some [(⟨strBytes "__debug_info", 4, 4⟩ : MachSectionM)]
      : Option (List MachSectionM)) ≠ none := by
  refine ⟨by decide, by decide, by decide⟩

/-- C4 (amended): `section(name)` returns the bytes of the first DWARF
table entry whose stored name equals the query exactly, or whose stored
name starts with `__` while the query starts with `.` and the remainders
agree, provided that entry's recorded byte range lies inside the image;
it returns nothing when no DWARF table was captured, when no entry
matches, or when the matched entry's range falls outside the image. -/
theorem section_lookup_semantics (o : ObjectM) (q : ByteStr) :
    (o.dwarf = none → Object.section_ o q = none) ∧
    (∀ tbl, o.dwarf = some tbl →
      ((∀ s ∈ tbl, sectionNameMatches s.name q = false) → Object.section_ o q = none) ∧
      (∀ s, tbl.find? (fun s => sectionNameMatches s.name q) = some s →
        (s.offset + s.size ≤ o.data.length →
          Object.section_ o q = some ((o.data.drop s.offset).take s.size)) ∧
        (o.data.length < s.offset + s.size → Object.section_ o q = none))) ∧
    (∀ rest : ByteStr,
      sectionNameMatches (strBytes "__" ++ rest) (strBytes "." ++ rest) = true) := by
  refine ⟨?_, ?_, ?_⟩
  · intro h
    unfold Object.section_
    rw [h]
  · intro tbl htbl
    have hred : Object.section_ o q
        = (match tbl.find? (fun s => sectionNameMatches s.name q) with
          | none => none
          | some s => sectionData s o.data) := by
      unfold Object.section_
      rw [htbl]
    constructor
    · intro hfalse
      rw [hred, List.find?_eq_none.mpr (fun s hs => by simp [hfalse s hs])]
    · intro s hfind
      constructor
      · intro hle
        rw [hred, hfind]
        show sectionData s o.data = _
        unfold sectionData
        rw [if_pos hle]
      · intro hgt
        rw [hred, hfind]
        show sectionData s o.data = none
        unfold sectionData
        rw [if_neg (by omega)]
  · intro rest
    have h2 : strBytes ("__") = [95, 95] := by decide
    have h1 : strBytes (".") = [46] := by decide
    rw [h2, h1]
    simp [sectionNameMatches, List.isPrefixOf]

/-- Witness for the amended C4: a three-byte image whose DWARF table
stores `__debug_info` over the in-bounds range `(1, 2)`, queried by the
dotted name. -/
theorem section_lookup_semantics_witness :
    Object.section_ ⟨[9, 8, 7], some [⟨strBytes "__debug_info", 1, 2⟩], [], none, []⟩
        (strBytes ".debug_info") = some [8, 7] :=
  (((section_lookup_semantics
      ⟨[9, 8, 7], some [⟨strBytes "__debug_info", 1, 2⟩], [], none, []⟩
      (strBytes ".debug_info")).2.1 [⟨strBytes "__debug_info", 1, 2⟩] rfl).2
    ⟨strBytes "__debug_info", 1, 2⟩ (by decide)).1 (by decide)

/-! ### Helper lemmas for `find_header` (claim C3) -/

theorem drop_take_agree (d d' : List Nat) (off sz : Nat)
    (hlen : d.length = d'.length)
    (hag : ∀ i, off ≤ i → i < off + sz → d.getD i 0 = d'.getD i 0) :
    (d.drop off).take sz = (d'.drop off).take sz := by
  apply List.ext_getElem?
  intro n
  rw [List.getElem?_take, List.getElem?_take, List.getElem?_drop, List.getElem?_drop]
  by_cases hn : n < sz
  · rw [if_pos hn, if_pos hn]
    by_cases hin : off + n < d.length
    · have hin' : off + n < d'.length := by omega
      have hv := hag (off + n) (by omega) (by omega)
      rw [List.getD_eq_getElem _ _ hin, List.getD_eq_getElem _ _ hin'] at hv
      rw [List.getElem?_eq_getElem hin, List.getElem?_eq_getElem hin', hv]
    · rw [List.getElem?_eq_none (by omega), List.getElem?_eq_none (by omega)]
  · rw [if_neg hn, if_neg hn]

theorem be32At_congr (d d' : List Nat) (off bound : Nat)
    (hag : ∀ i, i < bound → d.getD i 0 = d'.getD i 0) (hoff : off + 4 ≤ bound) :
    be32At d off = be32At d' off := by
  unfold be32At
  rw [hag off (by omega), hag (off + 1) (by omega), hag (off + 2) (by omega),
    hag (off + 3) (by omega)]

theorem be64At_congr (d d' : List Nat) (off bound : Nat)
    (hag : ∀ i, i < bound → d.getD i 0 = d'.getD i 0) (hoff : off + 8 ≤ bound) :
    be64At d off = be64At d' off := by
  unfold be64At
  rw [be32At_congr d d' off bound hag (by omega),
    be32At_congr d d' (off + 4) bound hag (by omega)]

theorem readFatArch_congr (is64 : Bool) (d d' : List Nat) (off bound : Nat)
    (hlen : d.length = d'.length)
    (hag : ∀ i, i < bound → d.getD i 0 = d'.getD i 0)
    (hoff : off + fatArchSize is64 ≤ bound) :
    readFatArch is64 d off = readFatArch is64 d' off := by
  unfold readFatArch
  rw [← hlen]
  by_cases hc : off + fatArchSize is64 ≤ d.length
  · rw [if_pos hc, if_pos hc]
    cases is64 with
    | false =>
      rw [if_neg (by simp), if_neg (by simp),
        be32At_congr d d' off bound hag (by simp [fatArchSize] at hoff; omega),
        be32At_congr d d' (off + 8) bound hag (by simp [fatArchSize] at hoff; omega),
        be32At_congr d d' (off + 12) bound hag (by simp [fatArchSize] at hoff; omega)]
    | true =>
      rw [if_pos rfl, if_pos rfl,
        be32At_congr d d' off bound hag (by simp [fatArchSize] at hoff; omega),
        be64At_congr d d' (off + 8) bound hag (by simp [fatArchSize] at hoff; omega),
        be64At_congr d d' (off + 16) bound hag (by simp [fatArchSize] at hoff; omega)]
  · rw [if_neg hc, if_neg hc]

theorem fatCandidates_congr (is64 : Bool) (d d' : List Nat) (nfat : Nat)
    (hlen : d.length = d'.length)
    (hag : ∀ i, i < 8 + fatArchSize is64 * nfat → d.getD i 0 = d'.getD i 0) :
    fatCandidates is64 d nfat = fatCandidates is64 d' nfat := by
  unfold fatCandidates
  refine List.filterMap_congr ?_
  intro i hi
  have hi' : i < nfat := List.mem_range.mp hi
  refine readFatArch_congr is64 d d' _ _ hlen hag ?_
  have h1 : fatArchSize is64 * i + fatArchSize is64 = fatArchSize is64 * (i + 1) := by ring
  have h2 : fatArchSize is64 * (i + 1) ≤ fatArchSize is64 * nfat :=
    Nat.mul_le_mul_left _ (by omega)
  omega

/-- Reduction of `find_header` on a fat magic word. -/
theorem find_header_fat_case (W : Nat) (desired : Option Nat) (is64 : Bool) (d : List Nat)
    (m : Nat) (hm : readU32LE d 0 = some m)
    (hfat : (is64 = false ∧ (m = FAT_MAGIC ∨ m = FAT_CIGAM)) ∨
            (is64 = true ∧ (m = FAT_MAGIC_64 ∨ m = FAT_CIGAM_64))) :
    find_header W desired d
      = (match fatSlice W desired is64 d with
        | none => none
        | some slice => (machParse W slice).map (fun h => (h, slice))) := by
  unfold find_header
  rw [hm]
  rcases hfat with ⟨h64, hm'⟩ | ⟨h64, hm'⟩ <;> subst h64 <;>
    rcases hm' with h | h <;> subst h <;> rfl

theorem fatSlice_some_inv (W : Nat) (desired : Option Nat) (is64 : Bool) (d : List Nat)
    (slice : List Nat) (h : fatSlice W desired is64 d = some slice) :
    ∃ nfat arch, readU32BE d 4 = some nfat ∧
      (fatCandidates is64 d nfat).find? (fun a => desired == some a.cputype) = some arch ∧
      desired = some arch.cputype ∧
      arch ∈ fatCandidates is64 d nfat ∧
      arch.offset < 2 ^ W ∧ arch.size < 2 ^ W ∧
      arch.offset + arch.size ≤ d.length ∧
      slice = (d.drop arch.offset).take arch.size := by
  unfold fatSlice at h
  cases hbe : readU32BE d 4 with
  | none => rw [hbe] at h; cases h
  | some nfat =>
    rw [hbe] at h
    have h' : (match (fatCandidates is64 d nfat).find? (fun a => desired == some a.cputype) with
      | none => none
      | some arch =>
        if fitsUsize W arch.offset ∧ fitsUsize W arch.size then
          read_bytes_at d arch.offset arch.size
        else none) = some slice := h
    cases hfind : (fatCandidates is64 d nfat).find? (fun a => desired == some a.cputype) with
    | none => rw [hfind] at h'; cases h'
    | some arch =>
      rw [hfind] at h'
      have h'' : (if fitsUsize W arch.offset ∧ fitsUsize W arch.size then
          read_bytes_at d arch.offset arch.size else none) = some slice := h'
      by_cases hfits : fitsUsize W arch.offset = true ∧ fitsUsize W arch.size = true
      · rw [if_pos hfits] at h''
        unfold read_bytes_at at h''
        by_cases hbound : arch.offset + arch.size ≤ d.length
        · rw [if_pos hbound] at h''
          have hslice : slice = (d.drop arch.offset).take arch.size := by
            cases h''; rfl
          obtain ⟨hf1, hf2⟩ := hfits
          simp only [fitsUsize, decide_eq_true_eq] at hf1 hf2
          refine ⟨nfat, arch, rfl, hfind, ?_, List.mem_of_find?_eq_some hfind,
            hf1, hf2, hbound, hslice⟩
          have := List.find?_some hfind
          simpa using this
        · rw [if_neg hbound] at h''; cases h''
      · rw [if_neg hfits] at h''; cases h''

theorem fatSlice_no_match (W : Nat) (desired : Option Nat) (is64 : Bool) (d : List Nat)
    (hno : ∀ nfat, readU32BE d 4 = some nfat →
      ∀ a ∈ fatCandidates is64 d nfat, desired ≠ some a.cputype) :
    fatSlice W desired is64 d = none := by
  unfold fatSlice
  cases hbe : readU32BE d 4 with
  | none => rfl
  | some nfat =>
    show (match (fatCandidates is64 d nfat).find? (fun a => desired == some a.cputype) with
      | none => none
      | some arch =>
        if fitsUsize W arch.offset ∧ fitsUsize W arch.size then
          read_bytes_at d arch.offset arch.size
        else none) = none
    rw [List.find?_eq_none.mpr (fun a ha => by simpa using hno nfat hbe a ha)]

theorem fatSlice_overflow (W : Nat) (desired : Option Nat) (is64 : Bool) (d : List Nat)
    (nfat : Nat) (arch : FatArchM) (hbe : readU32BE d 4 = some nfat)
    (hfind : (fatCandidates is64 d nfat).find? (fun a => desired == some a.cputype)
      = some arch)
    (hover : 2 ^ W ≤ arch.offset ∨ 2 ^ W ≤ arch.size) :
    fatSlice W desired is64 d = none := by
  unfold fatSlice
  rw [hbe]
  show (match (fatCandidates is64 d nfat).find? (fun a => desired == some a.cputype) with
    | none => none
    | some arch =>
      if fitsUsize W arch.offset ∧ fitsUsize W arch.size then
        read_bytes_at d arch.offset arch.size
      else none) = none
  rw [hfind]
  show (if fitsUsize W arch.offset ∧ fitsUsize W arch.size then
      read_bytes_at d arch.offset arch.size else none) = none
  rw [if_neg]
  rintro ⟨h1, h2⟩
  simp only [fitsUsize, decide_eq_true_eq] at h1 h2
  omega

theorem le32At_congr (d d' : List Nat) (off bound : Nat)
    (hag : ∀ i, i < bound → d.getD i 0 = d'.getD i 0) (hoff : off + 4 ≤ bound) :
    le32At d off = le32At d' off := by
  unfold le32At
  rw [hag off (by omega), hag (off + 1) (by omega), hag (off + 2) (by omega),
    hag (off + 3) (by omega)]

/-! ### Claim C3 -/

/-- C3: on a fat magic (32- or 64-bit variant), `find_header` selects
exactly the first readable architecture descriptor whose CPU type equals
the running process's architecture and slices out exactly that
descriptor's `(offset, size)` byte range; it returns nothing when no
descriptor matches or when the offset or size does not fit the address
width `W`; its result depends only on the header/descriptor bytes and the
selected slice's bytes, so bytes of non-selected slices are never read;
and a magic that is neither thin nor fat (or a buffer too short to hold a
magic) returns nothing. -/
theorem find_header_fat_selection (W : Nat) (desired : Option Nat) (d : List Nat) :
    (d.length < 4 → find_header W desired d = none) ∧
    (∀ m, readU32LE d 0 = some m →
      m ∉ ([MH_MAGIC_64, MH_CIGAM_64, MH_MAGIC, MH_CIGAM,
        FAT_MAGIC, FAT_CIGAM, FAT_MAGIC_64, FAT_CIGAM_64] : List Nat) →
      find_header W desired d = none) ∧
    (∀ m is64, readU32LE d 0 = some m →
      ((is64 = false ∧ (m = FAT_MAGIC ∨ m = FAT_CIGAM)) ∨
       (is64 = true ∧ (m = FAT_MAGIC_64 ∨ m = FAT_CIGAM_64))) →
      (∀ h slice, find_header W desired d = some (h, slice) →
        ∃ nfat arch, readU32BE d 4 = some nfat ∧
          (fatCandidates is64 d nfat).find? (fun a => desired == some a.cputype)
            = some arch ∧
          desired = some arch.cputype ∧ arch ∈ fatCandidates is64 d nfat ∧
          arch.offset + arch.size ≤ d.length ∧
          slice = (d.drop arch.offset).take arch.size) ∧
      ((∀ nfat, readU32BE d 4 = some nfat →
          ∀ a ∈ fatCandidates is64 d nfat, desired ≠ some a.cputype) →
        find_header W desired d = none) ∧
      (∀ nfat arch, readU32BE d 4 = some nfat →
        (fatCandidates is64 d nfat).find? (fun a => desired == some a.cputype)
          = some arch →
        2 ^ W ≤ arch.offset ∨ 2 ^ W ≤ arch.size →
        find_header W desired d = none) ∧
      (∀ d', d.length = d'.length →
        (∀ i, i < 8 + fatArchSize is64 * be32At d 4 → d.getD i 0 = d'.getD i 0) →
        (∀ nfat arch, readU32BE d 4 = some nfat →
          (fatCandidates is64 d nfat).find? (fun a => desired == some a.cputype)
            = some arch →
          ∀ i, arch.offset ≤ i → i < arch.offset + arch.size → d.getD i 0 = d'.getD i 0) →
        find_header W desired d = find_header W desired d')) := by
  refine ⟨?_, ?_, ?_⟩
  · intro hlt
    have hnone : readU32LE d 0 = none := by
      unfold readU32LE
      rw [if_neg (by omega)]
    unfold find_header
    rw [hnone]
  · intro m hm hno
    simp only [List.mem_cons, List.not_mem_nil, or_false, not_or] at hno
    obtain ⟨h1, h2, h3, h4, h5, h6, h7, h8⟩ := hno
    unfold find_header
    rw [hm]
    show (if m = MH_MAGIC_64 ∨ m = MH_CIGAM_64 ∨ m = MH_MAGIC ∨ m = MH_CIGAM then
        Option.map (fun h => (h, d)) (machParse W d)
      else if m = FAT_MAGIC ∨ m = FAT_CIGAM then
        match fatSlice W desired false d with
        | none => none
        | some slice => Option.map (fun h => (h, slice)) (machParse W slice)
      else if m = FAT_MAGIC_64 ∨ m = FAT_CIGAM_64 then
        match fatSlice W desired true d with
        | none => none
        | some slice => Option.map (fun h => (h, slice)) (machParse W slice)
      else none) = none
    rw [if_neg (by tauto), if_neg (by tauto), if_neg (by tauto)]
  · intro m is64 hm hfat
    refine ⟨?_, ?_, ?_, ?_⟩
    · intro h slice hfh
      rw [find_header_fat_case W desired is64 d m hm hfat] at hfh
      cases hfs : fatSlice W desired is64 d with
      | none => rw [hfs] at hfh; cases hfh
      | some slice' =>
        rw [hfs] at hfh
        have hfh' : (machParse W slice').map (fun hh => (hh, slice')) = some (h, slice) := hfh
        cases hmp : machParse W slice' with
        | none => rw [hmp] at hfh'; cases hfh'
        | some hh =>
          rw [hmp] at hfh'
          have hsl : slice = slice' := by
            have : (some (hh, slice') : Option (MachM × List Nat)) = some (h, slice) := hfh'
            cases this
            rfl
          obtain ⟨nfat, arch, hbe, hfind, hcpu, hmem, -, -, hbound, hslice'⟩ :=
            fatSlice_some_inv W desired is64 d slice' hfs
          exact ⟨nfat, arch, hbe, hfind, hcpu, hmem, hbound, by rw [hsl, hslice']⟩
    · intro hno
      rw [find_header_fat_case W desired is64 d m hm hfat,
        fatSlice_no_match W desired is64 d hno]
    · intro nfat arch hbe hfind hover
      rw [find_header_fat_case W desired is64 d m hm hfat,
        fatSlice_overflow W desired is64 d nfat arch hbe hfind hover]
    · intro d' hlen hhdr hsliceag
      have hm' : readU32LE d' 0 = some m := by
        unfold readU32LE at hm ⊢
        rw [← hlen]
        by_cases hc : 0 + 4 ≤ d.length
        · rw [if_pos hc] at hm ⊢
          rw [← le32At_congr d d' 0 (8 + fatArchSize is64 * be32At d 4) hhdr (by omega)]
          exact hm
        · rw [if_neg hc] at hm; cases hm
      rw [find_header_fat_case W desired is64 d m hm hfat,
        find_header_fat_case W desired is64 d' m hm' hfat]
      suffices hfs : fatSlice W desired is64 d = fatSlice W desired is64 d' by rw [hfs]
      unfold fatSlice
      have hbe4 : readU32BE d' 4 = readU32BE d 4 := by
        unfold readU32BE
        rw [← hlen]
        by_cases hc : 4 + 4 ≤ d.length
        · rw [if_pos hc, if_pos hc,
            be32At_congr d d' 4 (8 + fatArchSize is64 * be32At d 4) hhdr (by omega)]
        · rw [if_neg hc, if_neg hc]
      rw [hbe4]
      cases hbe : readU32BE d 4 with
      | none => rfl
      | some nfat =>
        have hnfat : nfat = be32At d 4 := by
          unfold readU32BE at hbe
          split at hbe
          · cases hbe; rfl
          · cases hbe
        have hcand : fatCandidates is64 d nfat = fatCandidates is64 d' nfat :=
          fatCandidates_congr is64 d d' nfat hlen
            (fun i hi => hhdr i (by rw [hnfat] at hi; exact hi))
        show (match (fatCandidates is64 d nfat).find? (fun a => desired == some a.cputype) with
          | none => none
          | some arch =>
            if fitsUsize W arch.offset ∧ fitsUsize W arch.size then
              read_bytes_at d arch.offset arch.size
            else none)
          = (match (fatCandidates is64 d' nfat).find? (fun a => desired == some a.cputype) with
          | none => none
          | some arch =>
            if fitsUsize W arch.offset ∧ fitsUsize W arch.size then
              read_bytes_at d' arch.offset arch.size
            else none)
        rw [← hcand]
        cases hfind : (fatCandidates is64 d nfat).find? (fun a => desired == some a.cputype) with
        | none => rfl
        | some arch =>
          show (if fitsUsize W arch.offset ∧ fitsUsize W arch.size then
              read_bytes_at d arch.offset arch.size else none)
            = (if fitsUsize W arch.offset ∧ fitsUsize W arch.size then
              read_bytes_at d' arch.offset arch.size else none)
          by_cases hfits : fitsUsize W arch.offset = true ∧ fitsUsize W arch.size = true
          · rw [if_pos hfits, if_pos hfits]
            unfold read_bytes_at
            rw [← hlen]
            by_cases hb : arch.offset + arch.size ≤ d.length
            · rw [if_pos hb, if_pos hb]
              rw [drop_take_agree d d' arch.offset arch.size hlen
                (fun i hi1 hi2 => hsliceag nfat arch hbe hfind i hi1 hi2)]
            · rw [if_neg hb, if_neg hb]
          · rw [if_neg hfits, if_neg hfits]

/-- Witness for C3: on the concrete fat image `exFat` (one descriptor,
CPU type 7, range `(28, 32)`), `find_header` with desired CPU 7 and
64-bit pointer width selects that descriptor and slices exactly its
range. -/
theorem find_header_fat_selection_witness :
    ∃ nfat arch, readU32BE exFat 4 = some nfat ∧
      (fatCandidates false exFat nfat).find? (fun a => (some 7 : Option Nat) == some a.cputype)
        = some arch ∧
      (some 7 : Option Nat) = some arch.cputype ∧ arch ∈ fatCandidates false exFat nfat ∧
      arch.offset + arch.size ≤ exFat.length ∧
      (exFat.drop 28).take 32 = (exFat.drop arch.offset).take arch.size :=
  ((find_header_fat_selection 64 (some 7) exFat).2.2 FAT_MAGIC false (by decide)
    (Or.inl ⟨rfl, Or.inl rfl⟩)).1 ⟨MH_CIGAM_64⟩ ((exFat.drop 28).take 32) (by decide)

/-! ### Claim C8 (corrected) -/

/-- C8 counterexample: three concrete worlds on which the claimed
three-way case split fails.  In `exWorld` the sibling candidate `y` has
the target's UUID 1, so by the claim it should supply the Mapping's
sections, but `y` fails to parse and `Mapping::new` falls back to the
target's own sections (provenance `none`).  In `exWorldErr` the target
parses fine and by the claim the Mapping should be built from it, but an
error entry in the parent directory's enumeration makes `Mapping::new`
return nothing.  In `exWorldSkip` the candidate `good` matches the
target's UUID and parses, yet the candidate `bad` listed before it fails
to map, which aborts that directory's scan, and `Mapping::new` falls
back to the target instead of using `good`. -/
theorem mapping_new_match_parse_failure :
    (Mapping.new exWorld [strBytes "t"] = some ⟨none, ⟨[]⟩⟩ ∧
      exWorld.probe [strBytes "y"] = some (1, none) ∧
      exWorld.probe [strBytes "t"] = some (1, some ⟨[]⟩)) ∧
    (Mapping.new exWorldErr [strBytes "t"] = none ∧
      exWorldErr.probe [strBytes "t"] = some (1, some ⟨[]⟩)) ∧
    (Mapping.new exWorldSkip [strBytes "t"] = some ⟨none, ⟨[]⟩⟩ ∧
      exWorldSkip.probe [strBytes "bad"] = none ∧
      exWorldSkip.probe [strBytes "good"] = some (1, some ⟨[(strBytes "g", 3)]⟩) ∧
      exWorldSkip.probe [strBytes "t"] = some (1, some ⟨[]⟩)) := by
  refine ⟨⟨by decide, by decide, by decide⟩, ⟨by decide, by decide⟩,
    by decide, by decide, by decide, by decide⟩

/-- Under a clean directory scan, the candidate loop of `load_dsym` picks
the first entry whose UUID matches and which parses to a context. -/
theorem loadDsymGo_eq_spec (w : WorldM) (uuid : Nat) :
    ∀ l, (∀ y ∈ l, ∃ e2, y = Except.ok e2 ∧ (w.probe e2.path).isSome = true) →
      loadDsymGo w uuid l = specDirScan w uuid l := by
  intro l
  induction l with
  | nil => intro _; rfl
  | cons y rest ih =>
    intro hcl
    obtain ⟨e2, rfl, hprobe⟩ := hcl y (List.mem_cons_self _ _)
    have htail := fun z hz => hcl z (List.mem_cons_of_mem _ hz)
    cases hpr : w.probe e2.path with
    | none => rw [hpr] at hprobe; cases hprobe
    | some pr =>
      obtain ⟨u, c⟩ := pr
      cases c with
      | some cx =>
        have hL : loadDsymGo w uuid (Except.ok e2 :: rest)
            = (if u ≠ uuid then loadDsymGo w uuid rest
              else some ⟨some e2.path, cx⟩) := by
          show (match w.probe e2.path with
            | none => none
            | some (u, c) =>
              if u ≠ uuid then loadDsymGo w uuid rest
              else
                match c with
                | some cx => some ⟨some e2.path, cx⟩
                | none => loadDsymGo w uuid rest) = _
          rw [hpr]
        have hR : specDirScan w uuid (Except.ok e2 :: rest)
            = (if u = uuid then some ⟨some e2.path, cx⟩
              else specDirScan w uuid rest) := by
          show (match w.probe e2.path with
            | none => specDirScan w uuid rest
            | some (u, c) =>
              if u = uuid then
                match c with
                | some cx => some ⟨some e2.path, cx⟩
                | none => specDirScan w uuid rest
              else specDirScan w uuid rest) = _
          rw [hpr]
        rw [hL, hR]
        by_cases hu : u = uuid
        · rw [if_neg (fun hne => hne hu), if_pos hu]
        · rw [if_pos hu, if_neg hu]
          exact ih htail
      | none =>
        have hL : loadDsymGo w uuid (Except.ok e2 :: rest)
            = (if u ≠ uuid then loadDsymGo w uuid rest
              else loadDsymGo w uuid rest) := by
          show (match w.probe e2.path with
            | none => none
            | some (u, c) =>
              if u ≠ uuid then loadDsymGo w uuid rest
              else
                match c with
                | some cx => some ⟨some e2.path, cx⟩
                | none => loadDsymGo w uuid rest) = _
          rw [hpr]
        have hR : specDirScan w uuid (Except.ok e2 :: rest)
            = (if u = uuid then specDirScan w uuid rest
              else specDirScan w uuid rest) := by
          show (match w.probe e2.path with
            | none => specDirScan w uuid rest
            | some (u, c) =>
              if u = uuid then
                match c with
                | some cx => some ⟨some e2.path, cx⟩
                | none => specDirScan w uuid rest
              else specDirScan w uuid rest) = _
          rw [hpr]
        rw [hL, hR]
        by_cases hu : u = uuid
        · rw [if_neg (fun hne => hne hu), if_pos hu]
          exact ih htail
        · rw [if_pos hu, if_neg hu]
          exact ih htail

/-- The candidate loop of `load_dsym` aborts at the first enumeration
error or probe failure: whatever follows it — matching candidates
included — is never looked at. -/
theorem loadDsymGo_abort (w : WorldM) (uuid : Nat)
    (y : Except Unit DirEntM) (post : List (Except Unit DirEntM))
    (hy : y = Except.error () ∨ ∃ e2, y = Except.ok e2 ∧ w.probe e2.path = none) :
    ∀ pre, (∀ x ∈ pre, ∃ e2 u c, x = Except.ok e2 ∧ w.probe e2.path = some (u, c) ∧
        (u ≠ uuid ∨ c = none)) →
      loadDsymGo w uuid (pre ++ y :: post) = none := by
  intro pre
  induction pre with
  | nil =>
    intro _
    rcases hy with rfl | ⟨e2, rfl, hpr⟩
    · rfl
    · show (match w.probe e2.path with
        | none => none
        | some (u, c) =>
          if u ≠ uuid then loadDsymGo w uuid post
          else
            match c with
            | some cx => some ⟨some e2.path, cx⟩
            | none => loadDsymGo w uuid post) = none
      rw [hpr]
  | cons x rest ih =>
    intro hpre
    obtain ⟨e2, u, c, hx, hpr, hmiss⟩ := hpre x (List.mem_cons_self _ _)
    subst hx
    have htail := fun z hz => hpre z (List.mem_cons_of_mem _ hz)
    show (match w.probe e2.path with
      | none => none
      | some (u, c) =>
        if u ≠ uuid then loadDsymGo w uuid (rest ++ y :: post)
        else
          match c with
          | some cx => some ⟨some e2.path, cx⟩
          | none => loadDsymGo w uuid (rest ++ y :: post)) = none
    rw [hpr]
    cases c with
    | some cx =>
      have hu : u ≠ uuid := by
        rcases hmiss with h | h
        · exact h
        · cases h
      show (if u ≠ uuid then loadDsymGo w uuid (rest ++ y :: post)
        else some ⟨some e2.path, cx⟩) = none
      rw [if_pos hu]
      exact ih htail
    | none =>
      show (if u ≠ uuid then loadDsymGo w uuid (rest ++ y :: post)
        else loadDsymGo w uuid (rest ++ y :: post)) = none
      by_cases hu : u ≠ uuid
      · rw [if_pos hu]; exact ih htail
      · rw [if_neg hu]; exact ih htail

/-- An error entry in the parent directory's enumeration aborts the
sibling scan with no result, provided no earlier sibling already
produced a match. -/
theorem newScan_abort_error (w : WorldM) (uuid : Nat) (tctx : Option CtxM)
    (u : Unit) (post : List (Except Unit DirEntM)) :
    ∀ pre, (∀ x ∈ pre, ∃ e, x = Except.ok e ∧
        ∀ name, e.fname = some name → dsymSuffix.isSuffixOf name = true →
          load_dsym w (e.path ++ dwarfSubdir) uuid = none) →
      newScan w uuid tctx (pre ++ Except.error u :: post) = none := by
  intro pre
  induction pre with
  | nil =>
    intro _
    cases u
    rfl
  | cons x rest ih =>
    intro hpre
    obtain ⟨e, hx, hnm⟩ := hpre x (List.mem_cons_self _ _)
    subst hx
    have htail := fun z hz => hpre z (List.mem_cons_of_mem _ hz)
    show (match e.fname with
      | none => newScan w uuid tctx (rest ++ Except.error u :: post)
      | some name =>
        if dsymSuffix.isSuffixOf name then
          match load_dsym w (e.path ++ dwarfSubdir) uuid with
          | some m => some m
          | none => newScan w uuid tctx (rest ++ Except.error u :: post)
        else newScan w uuid tctx (rest ++ Except.error u :: post)) = none
    cases hf : e.fname with
    | none => exact ih htail
    | some name =>
      show (if dsymSuffix.isSuffixOf name = true then
          match load_dsym w (e.path ++ dwarfSubdir) uuid with
          | some m => some m
          | none => newScan w uuid tctx (rest ++ Except.error u :: post)
        else newScan w uuid tctx (rest ++ Except.error u :: post)) = none
      by_cases hsuf : dsymSuffix.isSuffixOf name = true
      · rw [if_pos hsuf, hnm name hf hsuf]
        exact ih htail
      · rw [if_neg hsuf]
        exact ih htail

/-- Under a clean sibling scan, `Mapping::new`'s loop agrees with the
spec-side first-match scan followed by the target fallback.  The
cleanliness assumption on candidate directories is scoped to entries
that actually carry a Unicode `.dSYM` name — other entries are skipped
without touching the filesystem. -/
theorem newScan_eq_spec (w : WorldM) (uuid : Nat) (tctx : Option CtxM) :
    ∀ entries, (∀ x ∈ entries, ∃ e, x = Except.ok e) →
      (∀ e : DirEntM, Except.ok e ∈ entries →
        ∀ name, e.fname = some name → dsymSuffix.isSuffixOf name = true →
        ∀ l, w.readDir (e.path ++ dwarfSubdir) = some l →
        ∀ y ∈ l, ∃ e2, y = Except.ok e2 ∧ (w.probe e2.path).isSome = true) →
      newScan w uuid tctx entries
        = (match specFirstMatch w uuid entries with
          | some mp => some mp
          | none => tctx.map (fun c => ⟨none, c⟩)) := by
  intro entries
  induction entries with
  | nil => intro _ _; rfl
  | cons x rest ih =>
    intro hclean hdirs
    obtain ⟨e, rfl⟩ := hclean x (List.mem_cons_self _ _)
    have htailc := fun z hz => hclean z (List.mem_cons_of_mem _ hz)
    have htaild := fun e2 he2 => hdirs e2 (List.mem_cons_of_mem _ he2)
    show (match e.fname with
      | none => newScan w uuid tctx rest
      | some name =>
        if dsymSuffix.isSuffixOf name then
          match load_dsym w (e.path ++ dwarfSubdir) uuid with
          | some m => some m
          | none => newScan w uuid tctx rest
        else newScan w uuid tctx rest)
      = (match (match e.fname with
          | none => specFirstMatch w uuid rest
          | some name =>
            if dsymSuffix.isSuffixOf name then
              match (w.readDir (e.path ++ dwarfSubdir)).bind (specDirScan w uuid) with
              | some m => some m
              | none => specFirstMatch w uuid rest
            else specFirstMatch w uuid rest) with
        | some mp => some mp
        | none => tctx.map (fun c => ⟨none, c⟩))
    cases hf : e.fname with
    | none => exact ih htailc htaild
    | some name =>
      show (if dsymSuffix.isSuffixOf name = true then
          match load_dsym w (e.path ++ dwarfSubdir) uuid with
          | some m => some m
          | none => newScan w uuid tctx rest
        else newScan w uuid tctx rest)
        = (match (if dsymSuffix.isSuffixOf name = true then
            match (w.readDir (e.path ++ dwarfSubdir)).bind (specDirScan w uuid) with
            | some m => some m
            | none => specFirstMatch w uuid rest
          else specFirstMatch w uuid rest) with
          | some mp => some mp
          | none => tctx.map (fun c => ⟨none, c⟩))
      by_cases hsuf : dsymSuffix.isSuffixOf name = true
      · rw [if_pos hsuf, if_pos hsuf]
        have hdsym : load_dsym w (e.path ++ dwarfSubdir) uuid
            = (w.readDir (e.path ++ dwarfSubdir)).bind (specDirScan w uuid) := by
          unfold load_dsym
          cases hrd : w.readDir (e.path ++ dwarfSubdir) with
          | none => rfl
          | some l =>
            show loadDsymGo w uuid l = specDirScan w uuid l
            exact loadDsymGo_eq_spec w uuid l
              (hdirs e (List.mem_cons_self _ _) name hf hsuf l hrd)
        rw [hdsym]
        cases (w.readDir (e.path ++ dwarfSubdir)).bind (specDirScan w uuid) with
        | none => exact ih htailc htaild
        | some m => rfl
      · rw [if_neg hsuf, if_neg hsuf]
        exact ih htailc htaild

/-- C8 (amended): `Mapping::new` requires the target to map, parse and
carry a UUID record, returning nothing otherwise.  It then scans the
parent directory in iteration order: an error entry in that enumeration
aborts the whole operation with no result, even though the target itself
parsed; for each sibling with a Unicode `.dSYM` name, the candidates in
its `Contents/Resources/DWARF` directory are scanned in order, and an
enumeration error or a candidate that fails to map or yield a UUID
aborts that directory's scan, skipping its later candidates; the first
candidate so reached whose embedded UUID equals the target's and which
also parses to a Context supplies the Mapping; when the scan completes
with no such candidate, the Mapping is built from the target's own
sections (nothing when the target itself does not parse). -/
theorem mapping_new_cases (w : WorldM) (path : PathM) :
    (w.probe path = none → Mapping.new w path = none) ∧
    (∀ uuid tctx parent pre post u,
      w.probe path = some (uuid, tctx) →
      w.parentOf path = some parent →
      w.readDir parent = some (pre ++ Except.error u :: post) →
      (∀ x ∈ pre, ∃ e, x = Except.ok e ∧
        ∀ name, e.fname = some name → dsymSuffix.isSuffixOf name = true →
          load_dsym w (e.path ++ dwarfSubdir) uuid = none) →
      Mapping.new w path = none) ∧
    (∀ uuid y post,
      (y = Except.error () ∨ ∃ e2, y = Except.ok e2 ∧ w.probe e2.path = none) →
      ∀ pre, (∀ x ∈ pre, ∃ e2 u c, x = Except.ok e2 ∧ w.probe e2.path = some (u, c) ∧
          (u ≠ uuid ∨ c = none)) →
        loadDsymGo w uuid (pre ++ y :: post) = none) ∧
    (∀ uuid tctx parent entries,
      w.probe path = some (uuid, tctx) →
      w.parentOf path = some parent →
      w.readDir parent = some entries →
      (∀ x ∈ entries, ∃ e, x = Except.ok e) →
      (∀ e : DirEntM, Except.ok e ∈ entries →
        ∀ name, e.fname = some name → dsymSuffix.isSuffixOf name = true →
        ∀ l, w.readDir (e.path ++ dwarfSubdir) = some l →
        ∀ y ∈ l, ∃ e2, y = Except.ok e2 ∧ (w.probe e2.path).isSome = true) →
      Mapping.new w path = specNew w path) := by
  refine ⟨?_, ?_, ?_, ?_⟩
  · intro h
    unfold Mapping.new
    rw [h]
  · intro uuid tctx parent pre post u hprobe hparent hdir hpre
    unfold Mapping.new
    rw [hprobe, hparent]
    show (match w.readDir parent with
      | none => none
      | some entries => newScan w uuid tctx entries) = none
    rw [hdir]
    exact newScan_abort_error w uuid tctx u post pre hpre
  · intro uuid y post hy pre hpre
    exact loadDsymGo_abort w uuid y post hy pre hpre
  · intro uuid tctx parent entries hprobe hparent hdir hclean hdirs
    unfold Mapping.new specNew
    rw [hprobe, hparent]
    show (match w.readDir parent with
      | none => none
      | some entries => newScan w uuid tctx entries)
      = (match w.readDir parent with
      | none => none
      | some entries =>
        match specFirstMatch w uuid entries with
        | some m => some m
        | none => tctx.map (fun c => ⟨none, c⟩))
    rw [hdir]
    exact newScan_eq_spec w uuid tctx entries hclean hdirs

/-- Witness for the amended C8: in the clean world `exWorld4` the single
sibling `b.dSYM` holds the matching, parsable candidate `z`, and
`Mapping::new` agrees with the spec-side resolution; both indeed select
`z` as the Mapping's source. -/
theorem mapping_new_cases_witness :
    Mapping.new exWorld4 [strBytes "t"] = specNew exWorld4 [strBytes "t"] ∧
    specNew exWorld4 [strBytes "t"] = some ⟨some entZ.path, ⟨[(strBytes "g", 3)]⟩⟩ :=
  ⟨(mapping_new_cases exWorld4 [strBytes "t"]).2.2.2 1 (some ⟨[]⟩) [] [Except.ok entB]
    rfl rfl rfl
    (by
      intro x hx
      rw [List.mem_singleton] at hx
      exact ⟨entB, hx⟩)
    (by
      intro e he name hname hsuf l hl y hy
      rw [List.mem_singleton] at he
      have he' : e = entB := by
        cases he
        rfl
      subst he'
      rw [show exWorld4.readDir (entB.path ++ dwarfSubdir) = some [Except.ok entZ]
        from rfl] at hl
      have hl' : l = [Except.ok entZ] := by
        cases hl
        rfl
      subst hl'
      rw [List.mem_singleton] at hy
      exact ⟨entZ, hy, by decide⟩),
    by decide⟩

end Macho
